import Mathlib

/-!
# EasyDemonList: the leaderboard aggregator of `src/js/content.js`

A shallow embedding of `fetchPacks`, `fetchList`, `fetchLeaderboard` and `fetchPackLevels`, and
the properties of the level sequences and of the leaderboard they build.

* JavaScript numbers are the elements of an arbitrary linearly ordered ring `ν`
  (exact arithmetic; `ℤ` and `ℚ` are instances), so `NaN` and the infinities are
  outside the model. The examples are evaluated over `ℤ`.
* `score` and `round` come from `./score.js`, which is not part of the sources:
  they are parameters, as is `lower`, the function `String.prototype.toLowerCase`.
* An `async` function is modelled by its completion: `.ok v` when the promise
  resolves to `v` (with `none` for `null`), `.error e` when it rejects.
* `scoreMap` and `levelToPacks` are plain objects: a name inherited from `Object.prototype`
  reads as a value that is not `undefined`, and `Object.keys` lists array-index names first,
  in ascending numeric order, then the other names in order of creation.
* The data source is typed: behind every URL there is a document of the expected
  shape, a body that does not parse, or a `fetch` that rejects.
* `fetchLeaderboardFrom` is the body of `fetchLeaderboard` after `await fetchList()`, as a
  function of the list and of the value of the second `await fetchPacks()`.
-/

namespace EasyDemonList

/-! ## Plain JavaScript objects used as string-keyed maps -/

/-- Reasons for which a call throws (its promise rejects). -/
inductive JsError where
  | typeError
  | networkError
  deriving DecidableEq, Repr

/-- A plain object `{}`: its own properties, in order of creation. -/
abbrev PlainObject (α : Type) := List (String × α)

/-- Property names every plain object inherits from `Object.prototype`. -/
def objectPrototypeKeys : List String :=
  ["constructor", "hasOwnProperty", "isPrototypeOf", "propertyIsEnumerable",
   "toLocaleString", "toString", "valueOf", "__proto__", "__defineGetter__",
   "__defineSetter__", "__lookupGetter__", "__lookupSetter__"]

/-- Result of reading `o[k]`. -/
inductive Lookup (α : Type) where
  | own (value : α)
  | inherited
  | undefined
  deriving DecidableEq, Repr

/-- Own property `k` of `o`, if any. -/
def getOwn {α : Type} (o : PlainObject α) (k : String) : Option α :=
  (o.find? (fun e => e.1 == k)).map (fun e => e.2)

/-- Reading `o[k]`: an own property, else a member of `Object.prototype`, else `undefined`. -/
def get {α : Type} (o : PlainObject α) (k : String) : Lookup α :=
  match getOwn o k with
  | some v => .own v
  | none => if k ∈ objectPrototypeKeys then .inherited else .undefined

/-- The statement `o[k] ??= init`: assigns only when `o[k]` is `undefined`. -/
def nullishAssign {α : Type} (o : PlainObject α) (k : String) (init : α) : PlainObject α :=
  match get o k with
  | .undefined => o ++ [(k, init)]
  | _ => o

/-- In-place update of the value held by the own property `k`. -/
def modifyOwn {α : Type} (o : PlainObject α) (k : String) (f : α → α) : PlainObject α :=
  o.map (fun e => if e.1 = k then (e.1, f e.2) else e)

/-- Numeric value of a property name that is an array index: a canonical decimal
numeral (no leading zero) below `2^32 - 1`. -/
def arrayIndex? (s : String) : Option Nat :=
  match s.data with
  | [] => none
  | c :: cs =>
    if (c :: cs).all Char.isDigit && (c != '0' || cs.isEmpty) then
      let n := (c :: cs).foldl (fun acc d => 10 * acc + (d.toNat - 48)) 0
      if n < 4294967295 then some n else none
    else none

/-- Whether a property name is an array index. -/
def isArrayIndex (s : String) : Bool := (arrayIndex? s).isSome

/-- The order of `Object.entries(o)`: array-index names first, by ascending numeric value,
then every other name in order of creation. -/
def ownEntries {α : Type} (o : PlainObject α) : List (String × α) :=
  (o.filter (fun e => isArrayIndex e.1)).insertionSort
      (fun a b => (arrayIndex? a.1).getD 0 ≤ (arrayIndex? b.1).getD 0)
    ++ o.filter (fun e => !isArrayIndex e.1)

/-- The order of `Object.keys(o)`. -/
def ownKeys {α : Type} (o : PlainObject α) : List String :=
  (ownEntries o).map (fun e => e.1)

/-- The method `Array.prototype.sort(cmp)` for a consistent comparator: the stable sort
that puts `a` before `b` whenever `cmp a b < 0`. -/
def arraySort {α ν : Type} [LinearOrderedRing ν] (cmp : α → α → ν) (xs : List α) : List α :=
  xs.insertionSort (fun a b => cmp a b ≤ 0)

/-! ## Data model -/

/-- Entry of `_packlist.json`. -/
structure Pack where
  name : String
  colour : String
  levels : Option (List String)
  deriving DecidableEq, Repr

/-- The `{name, colour}` summary attached to a level. -/
structure PackSummary where
  name : String
  colour : String
  deriving DecidableEq, Repr

/-- Value of `levelToPacks[path] ?? []`. -/
inductive PackAnnotation where
  | summaries (packs : List PackSummary)
  | inheritedMember
  deriving DecidableEq, Repr

/-- Record of a level document; `hz` is the optional frequency field and `rest` holds the
fields the code does not name, each with the text of its value. -/
structure RawRecord (ν : Type) where
  user : String
  percent : ν
  link : String
  hz : Option String
  rest : List (String × String) := []
  deriving DecidableEq, Repr

/-- Record after `({ hz, ...rest }) => rest`. -/
structure Record (ν : Type) where
  user : String
  percent : ν
  link : String
  rest : List (String × String) := []
  deriving DecidableEq, Repr

/-- A level document `{levelId}.json`; `path`, `packs` and `records` may be absent. -/
structure RawLevel (ν : Type) where
  name : String
  percentToQualify : ν
  verifier : String
  verification : String
  records : Option (List (RawRecord ν))
  path : Option String
  packs : Option (List PackSummary)
  deriving DecidableEq, Repr

/-- A level as returned by `fetchList`. -/
structure Level (ν : Type) where
  name : String
  percentToQualify : ν
  verifier : String
  verification : String
  path : String
  packs : PackAnnotation
  records : List (Record ν)
  deriving DecidableEq, Repr

/-- The pair `[level, err]` of one slot. -/
abbrev LoadResult (ν : Type) := Option (Level ν) × Option String

/-- Entry of a player's `verified` list. -/
structure Verified (ν : Type) where
  rank : Nat
  level : String
  score : ν
  link : String
  deriving DecidableEq, Repr

/-- Entry of a player's `completed` list. -/
structure Completed (ν : Type) where
  rank : Nat
  level : String
  levelPath : String
  score : ν
  link : String
  deriving DecidableEq, Repr

/-- Entry of a player's `progressed` list. -/
structure Progressed (ν : Type) where
  rank : Nat
  level : String
  levelPath : String
  percent : ν
  score : ν
  link : String
  deriving DecidableEq, Repr

/-- Value stored in `scoreMap` under a user name. -/
structure Scores (ν : Type) where
  verified : List (Verified ν)
  completed : List (Completed ν)
  progressed : List (Progressed ν)
  deriving DecidableEq, Repr

/-- Element of the array returned by `fetchLeaderboard`. -/
structure Player (ν : Type) where
  user : String
  total : ν
  packs : List Pack
  verified : List (Verified ν)
  completed : List (Completed ν)
  progressed : List (Progressed ν)
  deriving DecidableEq, Repr

/-- Outcome of `fetch(url)` followed by `.json()`. -/
inductive Fetched (α : Type) where
  | rejected
  | unparsable
  | parsed (doc : α)
  deriving DecidableEq, Repr

/-- The documents under `/data`. -/
structure DataSource (ν : Type) where
  packlist : Fetched (List Pack)
  list : Fetched (List String)
  level : String → Fetched (RawLevel ν)

/-! ## `fetchPacks` and `fetchList` -/

/-- The function `fetchPacks`: both the `fetch` and the parse are inside its `try`. -/
def fetchPacks {ν : Type} (ds : DataSource ν) : Option (List Pack) :=
  match ds.packlist with
  | .parsed packs => some packs
  | _ => none

/-- The statement `(levelToPacks[levelId] ??= []).push(summary)`; an inherited member has no `push`. -/
def pushPack (levelToPacks : PlainObject (List PackSummary)) (levelId : String)
    (summary : PackSummary) : Except JsError (PlainObject (List PackSummary)) :=
  let levelToPacks := nullishAssign levelToPacks levelId []
  match get levelToPacks levelId with
  | .own _ => .ok (modifyOwn levelToPacks levelId (fun l => l ++ [summary]))
  | _ => .error .typeError

/-- The reverse index `levelToPacks` built by lines 11-22. -/
def indexPacks (packs : Option (List Pack)) : Except JsError (PlainObject (List PackSummary)) :=
  match packs with
  | none => .ok []
  | some packs =>
    packs.foldlM (fun acc pack =>
      (pack.levels.getD []).foldlM (fun acc levelId =>
        pushPack acc levelId { name := pack.name, colour := pack.colour }) acc) []

/-- The callback `({ hz, ...rest }) => rest`. -/
def stripHz {ν : Type} (r : RawRecord ν) : Record ν :=
  { user := r.user, percent := r.percent, link := r.link, rest := r.rest }

/-- The expression `(level.records ?? []).map(...).sort((a, b) => b.percent - a.percent)`. -/
def normalizeRecords {ν : Type} [LinearOrderedRing ν] (records : Option (List (RawRecord ν))) :
    List (Record ν) :=
  arraySort (fun a b => b.percent - a.percent) ((records.getD []).map stripHz)

/-- The expression `levelToPacks[path] ?? []`. -/
def packsOf (levelToPacks : PlainObject (List PackSummary)) (path : String) : PackAnnotation :=
  match get levelToPacks path with
  | .own l => .summaries l
  | .inherited => .inheritedMember
  | .undefined => .summaries []

/-- The callback of `list.map` in `fetchList`: the `fetch` is outside the `try`, the parse inside. -/
def loadLevel {ν : Type} [LinearOrderedRing ν] (ds : DataSource ν)
    (levelToPacks : PlainObject (List PackSummary)) (path : String) :
    Except JsError (LoadResult ν) :=
  match ds.level path with
  | .rejected => .error .networkError
  | .unparsable => .ok (none, some path)
  | .parsed level =>
    .ok (some { name := level.name
                percentToQualify := level.percentToQualify
                verifier := level.verifier
                verification := level.verification
                path := path
                packs := packsOf levelToPacks path
                records := normalizeRecords level.records }, none)

/-- The function `fetchList`. The index is built and `_list.json` is fetched outside the `try`;
inside it, a rejection of `Promise.all` is caught and turned into `null`. -/
def fetchList {ν : Type} [LinearOrderedRing ν] (ds : DataSource ν) :
    Except JsError (Option (List (LoadResult ν))) :=
  match indexPacks (fetchPacks ds) with
  | .error e => .error e
  | .ok levelToPacks =>
    match ds.list with
    | .rejected => .error .networkError
    | .unparsable => .ok none
    | .parsed list =>
      match list.mapM (loadLevel ds levelToPacks) with
      | .ok slots => .ok (some slots)
      | .error _ => .ok none

/-! ## `fetchLeaderboard` -/

/-- The literal `{ verified: [], completed: [], progressed: [] }`. -/
def emptyScores {ν : Type} : Scores ν := { verified := [], completed := [], progressed := [] }

/-- The expression `Object.keys(scoreMap).find((u) => u.toLowerCase() === name.toLowerCase()) || name`;
an empty-string hit is falsy, so `||` falls through to `name`. -/
def resolveUser {ν : Type} (lower : String → String) (scoreMap : PlainObject (Scores ν))
    (name : String) : String :=
  match (ownKeys scoreMap).find? (fun u => lower u == lower name) with
  | some u => if u = "" then name else u
  | none => name

/-- The statements `scoreMap[user] ??= {...}; scoreMap[user].<list>.push(...)`; an inherited
member has none of the three lists, so the `push` throws. -/
def credit {ν : Type} (scoreMap : PlainObject (Scores ν)) (user : String)
    (push : Scores ν → Scores ν) : Except JsError (PlainObject (Scores ν)) :=
  let scoreMap := nullishAssign scoreMap user emptyScores
  match get scoreMap user with
  | .own _ => .ok (modifyOwn scoreMap user push)
  | _ => .error .typeError

/-- The callback of `level.records.forEach`. -/
def creditRecord {ν : Type} [LinearOrderedRing ν] (lower : String → String) (score : Nat → ν → ν → ν)
    (level : Level ν) (rank : Nat) (scoreMap : PlainObject (Scores ν)) (record : Record ν) :
    Except JsError (PlainObject (Scores ν)) :=
  let user := resolveUser lower scoreMap record.user
  if record.percent = 100 then
    credit scoreMap user (fun s => { s with completed := s.completed ++
      [{ rank := rank + 1, level := level.name, levelPath := level.path,
         score := score (rank + 1) 100 level.percentToQualify, link := record.link }] })
  else
    credit scoreMap user (fun s => { s with progressed := s.progressed ++
      [{ rank := rank + 1, level := level.name, levelPath := level.path,
         percent := record.percent,
         score := score (rank + 1) record.percent level.percentToQualify,
         link := record.link }] })

/-- The verification part of the callback of `list.forEach`. -/
def creditVerifier {ν : Type} [LinearOrderedRing ν] (lower : String → String)
    (score : Nat → ν → ν → ν) (level : Level ν) (rank : Nat) (scoreMap : PlainObject (Scores ν)) :
    Except JsError (PlainObject (Scores ν)) :=
  let verifier := resolveUser lower scoreMap level.verifier
  credit scoreMap verifier (fun s => { s with verified := s.verified ++
    [{ rank := rank + 1, level := level.name,
       score := score (rank + 1) 100 level.percentToQualify, link := level.verification }] })

/-- Truthiness of `err`: `null` and the empty string are falsy. -/
def truthy (err : Option String) : Bool :=
  match err with
  | some s => s != ""
  | none => false

/-- The callback of `list.forEach(([level, err], rank) => ...)` acting on `(scoreMap, errs)`;
reading `level.verifier` on a `null` level throws. -/
def processSlot {ν : Type} [LinearOrderedRing ν] (lower : String → String) (score : Nat → ν → ν → ν)
    (acc : PlainObject (Scores ν) × List String) (slot : Nat × LoadResult ν) :
    Except JsError (PlainObject (Scores ν) × List String) :=
  let rank := slot.1
  let level := slot.2.1
  let err := slot.2.2
  if truthy err then .ok (acc.1, acc.2 ++ [err.getD ""])
  else
    match level with
    | none => .error .typeError
    | some level =>
      match creditVerifier lower score level rank acc.1 with
      | .error e => .error e
      | .ok scoreMap =>
        match level.records.foldlM (creditRecord lower score level rank) scoreMap with
        | .error e => .error e
        | .ok scoreMap => .ok (scoreMap, acc.2)

/-- The whole `list.forEach` of lines 71-122, from the empty `scoreMap` and `errs`. -/
def foldList {ν : Type} [LinearOrderedRing ν] (lower : String → String) (score : Nat → ν → ν → ν)
    (list : List (LoadResult ν)) : Except JsError (PlainObject (Scores ν) × List String) :=
  list.enum.foldlM (processSlot lower score) ([], [])

/-- The sum `[verified, completed, progressed].flat().reduce((prev, cur) => prev + cur.score, 0)`. -/
def scoreSum {ν : Type} [LinearOrderedRing ν] (verified : List (Verified ν))
    (completed : List (Completed ν)) (progressed : List (Progressed ν)) : ν :=
  (verified.map (fun c => c.score) ++ completed.map (fun c => c.score)
    ++ progressed.map (fun c => c.score)).foldl (fun prev cur => prev + cur) 0

/-- The callback of `Object.entries(scoreMap).map` of lines 125-135. -/
def toPlayer {ν : Type} [LinearOrderedRing ν] (round : ν → ν) (entry : String × Scores ν) :
    Player ν :=
  { user := entry.1
    total := round (scoreSum entry.2.verified entry.2.completed entry.2.progressed)
    packs := []
    verified := entry.2.verified
    completed := entry.2.completed
    progressed := entry.2.progressed }

/-- The set `completedIds`: `filter(Boolean)` drops the empty string. -/
def completedIds {ν : Type} (player : Player ν) : List String :=
  (player.completed.map (fun l => l.levelPath)).filter (fun p => p != "")

/-- The callback of `packs.filter` of lines 147-151. -/
def packCompleted {ν : Type} (player : Player ν) (pack : Pack) : Bool :=
  let levels := pack.levels.getD []
  if levels.length = 0 then false
  else levels.all (fun levelId => decide (levelId ∈ completedIds player))

/-- Lines 139-155: the `packs` of every player, from the result of the second `fetchPacks`. -/
def assignPacks {ν : Type} (packs : Option (List Pack)) (res : List (Player ν)) : List (Player ν) :=
  match packs with
  | some packs => res.map (fun player => { player with packs := packs.filter (packCompleted player) })
  | none => res.map (fun player => { player with packs := [] })

/-- The array `res` of line 125, before pack completion and sorting. -/
def buildPlayers {ν : Type} [LinearOrderedRing ν] (round : ν → ν) (scoreMap : PlainObject (Scores ν)) :
    List (Player ν) :=
  (ownEntries scoreMap).map (toPlayer round)

/-- The body of `fetchLeaderboard` after `const list = await fetchList()`, given the value of
the later `await fetchPacks()`. -/
def fetchLeaderboardFrom {ν : Type} [LinearOrderedRing ν] (lower : String → String)
    (score : Nat → ν → ν → ν) (round : ν → ν) (list : Option (List (LoadResult ν)))
    (packs : Option (List Pack)) : Except JsError (Option (List (Player ν) × List String)) :=
  match list with
  | none => .ok none
  | some list =>
    match foldList lower score list with
    | .error e => .error e
    | .ok (scoreMap, errs) =>
      .ok (some (arraySort (fun a b => b.total - a.total)
        (assignPacks packs (buildPlayers round scoreMap)), errs))

/-- The function `fetchLeaderboard`. -/
def fetchLeaderboard {ν : Type} [LinearOrderedRing ν] (lower : String → String)
    (score : Nat → ν → ν → ν) (round : ν → ν) (ds : DataSource ν) :
    Except JsError (Option (List (Player ν) × List String)) :=
  match fetchList ds with
  | .error e => .error e
  | .ok list => fetchLeaderboardFrom lower score round list (fetchPacks ds)

/-- ASCII lower-casing, the restriction of `toLowerCase` to ASCII names. -/
def asciiLower (s : String) : String := ⟨s.data.map Char.toLower⟩

/-! ## The fold of `fetchLeaderboard` as a sequence of credits -/

/-- A contribution pushed on one of the three lists of a player. -/
inductive Contribution (ν : Type) where
  | verified (c : Verified ν)
  | completed (c : Completed ν)
  | progressed (c : Progressed ν)
  deriving DecidableEq, Repr

/-- The `push` that a contribution stands for. -/
def Contribution.push {ν : Type} : Contribution ν → Scores ν → Scores ν
  | .verified c, s => { s with verified := s.verified ++ [c] }
  | .completed c, s => { s with completed := s.completed ++ [c] }
  | .progressed c, s => { s with progressed := s.progressed ++ [c] }

/-- The `verified` entry carried by a contribution, if it is one. -/
def Contribution.asVerified {ν : Type} : Contribution ν → Option (Verified ν)
  | .verified c => some c
  | _ => none

/-- The `completed` entry carried by a contribution, if it is one. -/
def Contribution.asCompleted {ν : Type} : Contribution ν → Option (Completed ν)
  | .completed c => some c
  | _ => none

/-- The `progressed` entry carried by a contribution, if it is one. -/
def Contribution.asProgressed {ν : Type} : Contribution ν → Option (Progressed ν)
  | .progressed c => some c
  | _ => none

/-- One credit: resolve the name against the current `scoreMap`, then push. -/
def applyCredit {ν : Type} (lower : String → String) (scoreMap : PlainObject (Scores ν))
    (e : String × Contribution ν) : Except JsError (PlainObject (Scores ν)) :=
  credit scoreMap (resolveUser lower scoreMap e.1) e.2.push

/-- The `verified` entry made for the level at 0-based position `rank`. -/
def verifiedEntry {ν : Type} [LinearOrderedRing ν] (score : Nat → ν → ν → ν) (rank : Nat)
    (level : Level ν) : Verified ν :=
  { rank := rank + 1, level := level.name,
    score := score (rank + 1) 100 level.percentToQualify, link := level.verification }

/-- The `completed` entry made for a record of the level at 0-based position `rank`. -/
def completedEntry {ν : Type} [LinearOrderedRing ν] (score : Nat → ν → ν → ν) (rank : Nat)
    (level : Level ν) (record : Record ν) : Completed ν :=
  { rank := rank + 1, level := level.name, levelPath := level.path,
    score := score (rank + 1) 100 level.percentToQualify, link := record.link }

/-- The `progressed` entry made for a record of the level at 0-based position `rank`. -/
def progressedEntry {ν : Type} [LinearOrderedRing ν] (score : Nat → ν → ν → ν) (rank : Nat)
    (level : Level ν) (record : Record ν) : Progressed ν :=
  { rank := rank + 1, level := level.name, levelPath := level.path, percent := record.percent,
    score := score (rank + 1) record.percent level.percentToQualify, link := record.link }

/-- The credit of a record: a completion at 100 percent, a progress otherwise. -/
def recordCredit {ν : Type} [LinearOrderedRing ν] (score : Nat → ν → ν → ν) (rank : Nat)
    (level : Level ν) (record : Record ν) : String × Contribution ν :=
  (record.user, if record.percent = 100 then .completed (completedEntry score rank level record)
    else .progressed (progressedEntry score rank level record))

/-- The credits of a loaded level, in the order of the fold: the verifier, then the records. -/
def levelCredits {ν : Type} [LinearOrderedRing ν] (score : Nat → ν → ν → ν)
    (il : Nat × Level ν) : List (String × Contribution ν) :=
  (il.2.verifier, .verified (verifiedEntry score il.1 il.2))
    :: il.2.records.map (recordCredit score il.1 il.2)

/-- The level of a slot that the fold treats as loaded: `err` is falsy and `level` is not null. -/
def loadedSlot {ν : Type} (slot : Nat × LoadResult ν) : Option (Nat × Level ν) :=
  if truthy slot.2.2 then none else slot.2.1.map (fun level => (slot.1, level))

/-- The loaded levels of a list with their 0-based positions. -/
def loadedLevels {ν : Type} (list : List (LoadResult ν)) : List (Nat × Level ν) :=
  list.enum.filterMap loadedSlot

/-- All credits of a list, in the order of the fold. -/
def listCredits {ν : Type} [LinearOrderedRing ν] (score : Nat → ν → ν → ν)
    (list : List (LoadResult ν)) : List (String × Contribution ν) :=
  (loadedLevels list).flatMap (levelCredits score)

/-- The identifiers of the slots whose `err` is truthy, in list order. -/
def failedIds {ν : Type} (list : List (LoadResult ν)) : List String :=
  (list.filter (fun slot => truthy slot.2)).map (fun slot => slot.2.getD "")

/-- The first-seen spelling of `name` in a sequence of names: the first one equal to it after
lower-casing, `name` itself when there is none. -/
def firstSeen (lower : String → String) (names : List String) (name : String) : String :=
  (names.find? (fun u => lower u == lower name)).getD name

/-- The contributions held by a player, list by list. -/
def Player.contributions {ν : Type} (p : Player ν) : List (Contribution ν) :=
  p.verified.map .verified ++ p.completed.map .completed ++ p.progressed.map .progressed

/-- The contributions held by an entry of `scoreMap`, list by list. -/
def Scores.contributions {ν : Type} (s : Scores ν) : List (Contribution ν) :=
  s.verified.map .verified ++ s.completed.map .completed ++ s.progressed.map .progressed

/-- The `scoreMap` entry a player was built from. -/
def Player.entry {ν : Type} (p : Player ν) : String × Scores ν :=
  (p.user, { verified := p.verified, completed := p.completed, progressed := p.progressed })

/-- The value a name holds after the credits `evs`: what was pushed under a name equal to it
after lower-casing, in order. -/
def scoresOf {ν : Type} (lower : String → String) (evs : List (String × Contribution ν))
    (k : String) : Scores ν :=
  { verified := (evs.filter (fun e => lower e.1 == lower k)).filterMap (fun e => e.2.asVerified)
    completed := (evs.filter (fun e => lower e.1 == lower k)).filterMap (fun e => e.2.asCompleted)
    progressed :=
      (evs.filter (fun e => lower e.1 == lower k)).filterMap (fun e => e.2.asProgressed) }

/-- What holds of `scoreMap` after the credits `evs` have been applied to the empty object. -/
structure FoldInv {ν : Type} (lower : String → String) (evs : List (String × Contribution ν))
    (m : PlainObject (Scores ν)) : Prop where
  distinct : (m.map (fun e => e.1)).Pairwise (fun a b => lower a ≠ lower b)
  scores : ∀ e ∈ m, e.2 = scoresOf lower evs e.1
  covered : ∀ e ∈ evs, ∃ k ∈ m.map (fun e => e.1), lower k = lower e.1
  first : ∀ k ∈ m.map (fun e => e.1),
    (evs.map (fun e => e.1)).find? (fun u => lower u == lower k) = some k
  contribs : (m.flatMap (fun e => e.2.contributions)).Perm (evs.map (fun e => e.2))

/-- No slot has a falsy `err` together with a `null` level. -/
def Shaped {ν : Type} (list : List (LoadResult ν)) : Prop :=
  ∀ slot ∈ list, truthy slot.2 = true ∨ slot.1.isSome = true

/-- The body of the `res.forEach` of lines 142-154 for one player. -/
def setPacks {ν : Type} (packs : Option (List Pack)) (player : Player ν) : Player ν :=
  match packs with
  | some packs => { player with packs := packs.filter (packCompleted player) }
  | none => { player with packs := [] }

/-- The completions a list asks for: one per record at 100 percent of a loaded level. -/
def completedOf {ν : Type} [LinearOrderedRing ν] (score : Nat → ν → ν → ν)
    (list : List (LoadResult ν)) : List (Completed ν) :=
  (loadedLevels list).flatMap (fun il =>
    (il.2.records.filter (fun r => decide (r.percent = 100))).map (completedEntry score il.1 il.2))

/-- The progresses a list asks for: one per record below or above 100 percent of a loaded level. -/
def progressedOf {ν : Type} [LinearOrderedRing ν] (score : Nat → ν → ν → ν)
    (list : List (LoadResult ν)) : List (Progressed ν) :=
  (loadedLevels list).flatMap (fun il =>
    (il.2.records.filter (fun r => !decide (r.percent = 100))).map
      (progressedEntry score il.1 il.2))

/-- The names met by the fold, in its order: levels in list order, within a level the verifier
first and then the users of the records. -/
def foldNames {ν : Type} (list : List (LoadResult ν)) : List String :=
  (loadedLevels list).flatMap (fun il => il.2.verifier :: il.2.records.map (fun r => r.user))

/-- A score curve used in the examples. -/
def demoScore : Nat → ℤ → ℤ → ℤ := fun rank percent _ => 100 * percent / rank

/-- A loaded slot of the examples. -/
def demoLevel (path verifier : String) (records : List (Record ℤ)) : LoadResult ℤ :=
  (some { name := path, percentToQualify := 50, verifier := verifier, verification := "v"
          path := path, packs := .summaries [], records := records }, none)

/-- Three levels with records by `Foo`, `foo` and `FOO`. -/
def fooList : List (LoadResult ℤ) :=
  [demoLevel "a" "V" [{ user := "Foo", percent := 100, link := "x" }],
   demoLevel "b" "V" [{ user := "foo", percent := 100, link := "y" }],
   demoLevel "c" "V" [{ user := "FOO", percent := 70, link := "z" }]]

/-- The leaderboard of `fooList`. -/
def fooPlayers : List (Player ℤ) :=
  [{ user := "V", total := 18333, packs := []
     verified := [{ rank := 1, level := "a", score := 10000, link := "v" },
                  { rank := 2, level := "b", score := 5000, link := "v" },
                  { rank := 3, level := "c", score := 3333, link := "v" }]
     completed := [], progressed := [] },
   { user := "Foo", total := 17333, packs := []
     verified := []
     completed := [{ rank := 1, level := "a", levelPath := "a", score := 10000, link := "x" },
                   { rank := 2, level := "b", levelPath := "b", score := 5000, link := "y" }]
     progressed := [{ rank := 3, level := "c", levelPath := "c", percent := 70, score := 2333,
                      link := "z" }] }]

/-- A level whose identifier is the empty string, completed by `B`. -/
def emptyPathList : List (LoadResult ℤ) :=
  [demoLevel "" "A" [{ user := "B", percent := 100, link := "x" }]]

/-- A catalog whose only pack holds the level with the empty identifier. -/
def emptyPathCatalog : List Pack := [{ name := "P", colour := "red", levels := some [""] }]

/-- The leaderboard of `emptyPathList` with `emptyPathCatalog`. -/
def emptyPathPlayers : List (Player ℤ) :=
  [{ user := "A", total := 10000, packs := []
     verified := [{ rank := 1, level := "", score := 10000, link := "v" }]
     completed := [], progressed := [] },
   { user := "B", total := 10000, packs := []
     verified := []
     completed := [{ rank := 1, level := "", levelPath := "", score := 10000, link := "x" }]
     progressed := [] }]

/-- A level verified by `b` and completed by `1`: two players with the same total. -/
def tieList : List (LoadResult ℤ) :=
  [demoLevel "a" "b" [{ user := "1", percent := 100, link := "x" }]]

/-- The `scoreMap` after the fold of `tieList`: `b` is registered before `1`. -/
def tieScoreMap : PlainObject (Scores ℤ) :=
  [("b", { verified := [{ rank := 1, level := "a", score := 10000, link := "v" }]
           completed := [], progressed := [] }),
   ("1", { verified := []
           completed := [{ rank := 1, level := "a", levelPath := "a", score := 10000, link := "x" }]
           progressed := [] })]

/-- The leaderboard of `tieList`: `1` comes before `b`. -/
def tiePlayers : List (Player ℤ) :=
  [{ user := "1", total := 10000, packs := []
     verified := []
     completed := [{ rank := 1, level := "a", levelPath := "a", score := 10000, link := "x" }]
     progressed := [] },
   { user := "b", total := 10000, packs := []
     verified := [{ rank := 1, level := "a", score := 10000, link := "v" }]
     completed := [], progressed := [] }]

/-- Two levels: `X` completed both, `Y` completed the first and reached 60 percent on the second. -/
def packList : List (LoadResult ℤ) :=
  [demoLevel "a" "V" [{ user := "X", percent := 100, link := "x" },
                      { user := "Y", percent := 100, link := "y" }],
   demoLevel "b" "V" [{ user := "X", percent := 100, link := "x" },
                      { user := "Y", percent := 60, link := "y" }]]

/-- A catalog with the pack of both levels, an empty pack and a pack without `levels`. -/
def packCatalog : List Pack :=
  [{ name := "P", colour := "red", levels := some ["a", "b"] },
   { name := "E", colour := "blue", levels := some [] },
   { name := "N", colour := "green", levels := none }]

/-- The leaderboard of `packList` with `packCatalog`. -/
def packPlayers : List (Player ℤ) :=
  [{ user := "V", total := 15000, packs := []
     verified := [{ rank := 1, level := "a", score := 10000, link := "v" },
                  { rank := 2, level := "b", score := 5000, link := "v" }]
     completed := [], progressed := [] },
   { user := "X", total := 15000
     packs := [{ name := "P", colour := "red", levels := some ["a", "b"] }]
     verified := []
     completed := [{ rank := 1, level := "a", levelPath := "a", score := 10000, link := "x" },
                   { rank := 2, level := "b", levelPath := "b", score := 5000, link := "x" }]
     progressed := [] },
   { user := "Y", total := 13000, packs := []
     verified := []
     completed := [{ rank := 1, level := "a", levelPath := "a", score := 10000, link := "y" }]
     progressed := [{ rank := 2, level := "b", levelPath := "b", percent := 60, score := 3000,
                      link := "y" }] }]

/-- A level document of the examples. -/
def demoDoc (name verifier : String) : RawLevel ℤ :=
  { name := name, percentToQualify := 50, verifier := verifier, verification := "v"
    records := some [{ user := "X", percent := 100, link := "x", hz := some "240" }]
    path := none, packs := none }

/-- A data source whose list is `a`, `b`, where the `fetch` of `a.json` rejects. -/
def rejectedLevelSource : DataSource ℤ :=
  { packlist := .parsed []
    list := .parsed ["a", "b"]
    level := fun path => if path = "a" then .rejected else .parsed (demoDoc path "V") }

/-- The same data source, where `a.json` is fetched and does not parse. -/
def unparsableLevelSource : DataSource ℤ :=
  { packlist := .parsed []
    list := .parsed ["a", "b"]
    level := fun path => if path = "a" then .unparsable else .parsed (demoDoc path "V") }

/-- The same data source, where `a.json` loads. -/
def loadedLevelSource : DataSource ℤ :=
  { packlist := .parsed []
    list := .parsed ["a", "b"]
    level := fun path => .parsed (demoDoc path "V") }

/-- The slot of the level `b` of the three data sources above. -/
def slotB : LoadResult ℤ :=
  (some { name := "b", percentToQualify := 50, verifier := "V", verification := "v", path := "b"
          packs := .summaries [], records := [{ user := "X", percent := 100, link := "x" }] },
   none)

/-- A data source where the `fetch` of `_list.json` rejects. -/
def rejectedListSource : DataSource ℤ :=
  { packlist := .parsed []
    list := .rejected
    level := fun path => .parsed (demoDoc path "V") }

/-- A data source where `_list.json` is fetched and does not parse. -/
def unparsableListSource : DataSource ℤ :=
  { packlist := .parsed []
    list := .unparsable
    level := fun path => .parsed (demoDoc path "V") }

/-- A data source whose list holds the empty identifier, the document of which does not parse. -/
def emptyIdSource : DataSource ℤ :=
  { packlist := .parsed []
    list := .parsed [""]
    level := fun _ => .unparsable }

/-- The slot `fetchList` makes of a level whose `fetch` does not reject. -/
def slotOf {ν : Type} [LinearOrderedRing ν] (ds : DataSource ν)
    (levelToPacks : PlainObject (List PackSummary)) (path : String) : LoadResult ν :=
  match ds.level path with
  | .parsed level =>
    (some { name := level.name
            percentToQualify := level.percentToQualify
            verifier := level.verifier
            verification := level.verification
            path := path
            packs := packsOf levelToPacks path
            records := normalizeRecords level.records }, none)
  | _ => (none, some path)

/-- A level with a record at 10 percent, below the 50 percent needed to qualify. -/
def belowList : List (LoadResult ℤ) :=
  [demoLevel "a" "V" [{ user := "Z", percent := 10, link := "z" }]]

/-- The leaderboard of `belowList`. -/
def belowPlayers : List (Player ℤ) :=
  [{ user := "V", total := 10000, packs := []
     verified := [{ rank := 1, level := "a", score := 10000, link := "v" }]
     completed := [], progressed := [] },
   { user := "Z", total := 1000, packs := []
     verified := [], completed := []
     progressed := [{ rank := 1, level := "a", levelPath := "a", percent := 10, score := 1000,
                      link := "z" }] }]

/-- A failed slot followed by a loaded level. -/
def gapList : List (LoadResult ℤ) :=
  [(none, some "bad"),
   demoLevel "b" "V" [{ user := "X", percent := 100, link := "x" },
                      { user := "Y", percent := 60, link := "y" }]]

/-- The leaderboard of `gapList`: every entry has rank 2. -/
def gapPlayers : List (Player ℤ) :=
  [{ user := "V", total := 5000, packs := []
     verified := [{ rank := 2, level := "b", score := 5000, link := "v" }]
     completed := [], progressed := [] },
   { user := "X", total := 5000, packs := []
     verified := []
     completed := [{ rank := 2, level := "b", levelPath := "b", score := 5000, link := "x" }]
     progressed := [] },
   { user := "Y", total := 3000, packs := []
     verified := [], completed := []
     progressed := [{ rank := 2, level := "b", levelPath := "b", percent := 60, score := 3000,
                      link := "y" }] }]

/-- A player with its `packs` emptied. -/
def clearPacks {ν : Type} (p : Player ν) : Player ν := { p with packs := [] }

/-- A level document with unsorted records, frequency fields, and its own `path` and `packs`. -/
def recordsDoc : RawLevel ℤ :=
  { name := "A", percentToQualify := 50, verifier := "V", verification := "v"
    records := some [{ user := "A", percent := 60, link := "a", hz := some "240" },
                     { user := "B", percent := 100, link := "b", hz := none,
                       rest := [("mobile", "true")] },
                     { user := "C", percent := 60, link := "c", hz := some "60" }]
    path := some "other", packs := some [{ name := "Q", colour := "pink" }] }

/-- A level document without `records`. -/
def bareDoc : RawLevel ℤ :=
  { name := "N", percentToQualify := 50, verifier := "V", verification := "v"
    records := none, path := none, packs := none }

/-- A data source with the levels `a` (`recordsDoc`) and `n` (`bareDoc`), and a pack that
lists `a` twice. -/
def recordsSource : DataSource ℤ :=
  { packlist := .parsed [{ name := "P", colour := "red", levels := some ["a", "b", "a"] }]
    list := .parsed ["a", "n"]
    level := fun path => if path = "a" then .parsed recordsDoc else .parsed bareDoc }

/-- What `fetchList` returns on `recordsSource`. -/
def recordsSlots : List (LoadResult ℤ) :=
  [(some { name := "A", percentToQualify := 50, verifier := "V", verification := "v"
           path := "a"
           packs := .summaries [{ name := "P", colour := "red" }, { name := "P", colour := "red" }]
           records := [{ user := "B", percent := 100, link := "b", rest := [("mobile", "true")] },
                       { user := "A", percent := 60, link := "a" },
                       { user := "C", percent := 60, link := "c" }] }, none),
   (some { name := "N", percentToQualify := 50, verifier := "V", verification := "v"
           path := "n", packs := .summaries [], records := [] }, none)]

/-- The data source `recordsSource` where the `fetch` of `n.json` rejects. -/
def recordsSourceRejected : DataSource ℤ :=
  { packlist := .parsed [{ name := "P", colour := "red", levels := some ["a", "b", "a"] }]
    list := .parsed ["a", "n"]
    level := fun path => if path = "a" then .parsed recordsDoc else .rejected }

/-- The summaries of the packs of a catalog whose `levels` contain `path`, in catalog order, one
for each occurrence of `path`. -/
def summariesFor (catalog : List Pack) (path : String) : List PackSummary :=
  catalog.flatMap (fun pack =>
    ((pack.levels.getD []).filter (fun id => id == path)).map
      (fun _ => { name := pack.name, colour := pack.colour }))

/-- The pushes of lines 14-21, in order: one per level identifier of each pack. -/
def packEvents (catalog : List Pack) : List (String × PackSummary) :=
  catalog.flatMap (fun pack =>
    (pack.levels.getD []).map (fun id => (id, { name := pack.name, colour := pack.colour })))

/-- What holds of `levelToPacks` after the pushes `evs` have been applied to the empty object. -/
structure IndexInv (evs : List (String × PackSummary)) (idx : PlainObject (List PackSummary)) :
    Prop where
  nodup : (idx.map (fun e => e.1)).Nodup
  values : ∀ e ∈ idx, e.2 = (evs.filter (fun x => x.1 == e.1)).map (fun x => x.2)
  covered : ∀ e ∈ evs, e.1 ∈ idx.map (fun e => e.1)

/-- A data source whose only level is named `toString`; no pack holds it. -/
def protoSource : DataSource ℤ :=
  { packlist := .parsed [{ name := "P", colour := "red", levels := some ["a"] }]
    list := .parsed ["toString"]
    level := fun path => .parsed (demoDoc path "V") }

/-- A data source whose catalog holds a level named `constructor`. -/
def protoPackSource : DataSource ℤ :=
  { packlist := .parsed [{ name := "P", colour := "red", levels := some ["constructor"] }]
    list := .parsed ["a"]
    level := fun path => .parsed (demoDoc path "V") }

/-! ## `fetchPackLevels` -/

/-- The object `{ ...level, path, records }` of `fetchPackLevels`: `packs` is whatever the
document carries, no pack membership is injected. -/
structure PackLevel (ν : Type) where
  name : String
  percentToQualify : ν
  verifier : String
  verification : String
  path : String
  packs : Option (List PackSummary)
  records : List (Record ν)
  deriving DecidableEq, Repr

/-- The first component of a slot, as a JavaScript object: a level itself, or an object whose
single property `level` holds the level. -/
inductive SlotObject (ν : Type) where
  | level (l : PackLevel ν)
  | holder (level : PackLevel ν)
  deriving DecidableEq, Repr

/-- The pair of one slot of `fetchPackLevels`. -/
abbrev PackLoadResult (ν : Type) := Option (SlotObject ν) × Option String

/-- The callback of `(pack.levels ?? []).map` in `fetchPackLevels`: the `fetch` and the parse
are both inside the `try`, and the level is wrapped as `{ level: ... }`. -/
def loadPackLevel {ν : Type} [LinearOrderedRing ν] (ds : DataSource ν) (path : String) :
    PackLoadResult ν :=
  match ds.level path with
  | .parsed level =>
    (some (.holder { name := level.name
                     percentToQualify := level.percentToQualify
                     verifier := level.verifier
                     verification := level.verification
                     path := path
                     packs := level.packs
                     records := normalizeRecords level.records }), none)
  | _ => (none, some path)

/-- The function `fetchPackLevels`. -/
def fetchPackLevels {ν : Type} [LinearOrderedRing ν] (ds : DataSource ν) (packName : String) :
    Option (List (PackLoadResult ν)) :=
  match fetchPacks ds with
  | none => none
  | some packs =>
    match packs.find? (fun p => p.name == packName) with
    | none => none
    | some pack => some ((pack.levels.getD []).map (loadPackLevel ds))

/-- A level of `fetchList` without its pack annotation. -/
def bareLevel {ν : Type} (level : Level ν) : PackLevel ν :=
  { name := level.name, percentToQualify := level.percentToQualify, verifier := level.verifier
    verification := level.verification, path := level.path, packs := none
    records := level.records }

/-- A slot of `fetchList` without the pack annotation of its level. -/
def asLevelSlot {ν : Type} (slot : LoadResult ν) : PackLoadResult ν :=
  (slot.1.map (fun level => .level (bareLevel level)), slot.2)

/-- A data source with the pack `P` of the levels `a` and `x`; `x.json` does not parse. -/
def packLevelSource : DataSource ℤ :=
  { packlist := .parsed [{ name := "P", colour := "red", levels := some ["a", "x"] }]
    list := .parsed ["a", "x"]
    level := fun path => if path = "a" then .parsed (demoDoc "A" "V") else .unparsable }

/-- The level `a` of `packLevelSource` as `fetchPackLevels` builds it. -/
def packLevelA : PackLevel ℤ :=
  { name := "A", percentToQualify := 50, verifier := "V", verification := "v", path := "a"
    packs := none, records := [{ user := "X", percent := 100, link := "x" }] }

/-- What `fetchList` returns on `packLevelSource`. -/
def packLevelSlots : List (LoadResult ℤ) :=
  [(some { name := "A", percentToQualify := 50, verifier := "V", verification := "v"
           path := "a", packs := .summaries [{ name := "P", colour := "red" }]
           records := [{ user := "X", percent := 100, link := "x" }] }, none),
   (none, some "x")]

/-- A completion of `fetchLeaderboard` with the `packs` of every returned player emptied. -/
def clearResult {ν : Type} (r : Except JsError (Option (List (Player ν) × List String))) :
    Except JsError (Option (List (Player ν) × List String)) :=
  match r with
  | .ok (some x) => .ok (some (x.1.map clearPacks, x.2))
  | .ok none => .ok none
  | .error e => .error e

/-- A slot with the pack annotation of its level emptied. -/
def forgetPacks {ν : Type} (slot : LoadResult ν) : LoadResult ν :=
  (slot.1.map (fun level => { level with packs := .summaries [] }), slot.2)

/-- The data source `recordsSource` with an unavailable pack catalog. -/
def recordsSourceNoPacks : DataSource ℤ :=
  { packlist := .unparsable
    list := .parsed ["a", "n"]
    level := fun path => if path = "a" then .parsed recordsDoc else .parsed bareDoc }

deriving instance DecidableEq for Except

/-- Equality of the values `fetchList` resolves to is decidable. -/
instance decEqLoadResults {ν : Type} [DecidableEq ν] : DecidableEq (Option (List (LoadResult ν))) :=
  inferInstance

/-! ## Lemmas on plain objects -/

theorem mem_ownEntries {α : Type} (o : PlainObject α) (e : String × α) :
    e ∈ ownEntries o ↔ e ∈ o := by
  unfold ownEntries
  rw [List.mem_append, (List.perm_insertionSort _ _).mem_iff, List.mem_filter, List.mem_filter]
  cases isArrayIndex e.1 <;> simp

theorem ownEntries_perm {α : Type} (o : PlainObject α) : (ownEntries o).Perm o := by
  unfold ownEntries
  exact ((List.perm_insertionSort _ _).append_right _).trans (List.filter_append_perm _ o)

theorem mem_ownKeys {α : Type} (o : PlainObject α) (k : String) :
    k ∈ ownKeys o ↔ k ∈ o.map (fun e => e.1) := by
  unfold ownKeys
  exact ((ownEntries_perm o).map _).mem_iff

theorem getOwn_eq_none {α : Type} (o : PlainObject α) (k : String) :
    getOwn o k = none ↔ k ∉ o.map (fun e => e.1) := by
  unfold getOwn
  simp [List.find?_eq_none]
  constructor
  · intro h v hv
    exact h k v hv rfl
  · intro h a v hv hak
    subst hak
    exact h v hv

theorem modifyOwn_of_not_mem {α : Type} (o : PlainObject α) (k : String) (f : α → α)
    (h : k ∉ o.map (fun e => e.1)) : modifyOwn o k f = o := by
  unfold modifyOwn
  conv_rhs => rw [← List.map_id o]
  apply List.map_congr_left
  intro e he
  have : e.1 ≠ k := fun hk => h (List.mem_map.2 ⟨e, he, hk⟩)
  simp [this]

theorem modifyOwn_keys {α : Type} (o : PlainObject α) (k : String) (f : α → α) :
    (modifyOwn o k f).map (fun e => e.1) = o.map (fun e => e.1) := by
  unfold modifyOwn
  rw [List.map_map]
  apply List.map_congr_left
  intro e _
  by_cases h : e.1 = k <;> simp [h]

/-- The two ways in which `credit` succeeds: the name is an own key and its value is updated,
or it is neither own nor inherited and a fresh entry is appended. -/
theorem credit_ok {ν : Type} (m m2 : PlainObject (Scores ν)) (user : String)
    (push : Scores ν → Scores ν) (h : credit m user push = .ok m2) :
    (user ∈ m.map (fun e => e.1) ∧ m2 = modifyOwn m user push) ∨
    (user ∉ m.map (fun e => e.1) ∧ user ∉ objectPrototypeKeys ∧
      m2 = m ++ [(user, push emptyScores)]) := by
  unfold credit nullishAssign at h
  cases hg : getOwn m user with
  | some v =>
    have hmem : user ∈ m.map (fun e => e.1) := by
      by_contra hn
      rw [(getOwn_eq_none m user).2 hn] at hg
      cases hg
    simp only [get, hg] at h
    left
    refine ⟨hmem, ?_⟩
    injection h with h
    exact h.symm
  | none =>
    have hn : user ∉ m.map (fun e => e.1) := (getOwn_eq_none m user).1 hg
    by_cases hi : user ∈ objectPrototypeKeys
    · simp [get, hg, hi] at h
    · right
      refine ⟨hn, hi, ?_⟩
      have hg2 : getOwn (m ++ [(user, (emptyScores : Scores ν))]) user = some emptyScores := by
        unfold getOwn at hg ⊢
        have hf : List.find? (fun e => e.1 == user) m = none := by
          cases hfm : List.find? (fun e => e.1 == user) m with
          | none => rfl
          | some x => rw [hfm] at hg; cases hg
        rw [List.find?_append, hf]
        simp
      simp only [get, hg, hi, if_false, hg2] at h
      injection h with h
      rw [← h]
      unfold modifyOwn
      rw [List.map_append]
      have := modifyOwn_of_not_mem m user push hn
      unfold modifyOwn at this
      rw [this]
      simp

/-- The function `credit` succeeds on every name that is not inherited from `Object.prototype`. -/
theorem credit_isOk {ν : Type} (m : PlainObject (Scores ν)) (user : String)
    (push : Scores ν → Scores ν) (h : user ∈ m.map (fun e => e.1) ∨ user ∉ objectPrototypeKeys) :
    ∃ m2, credit m user push = .ok m2 := by
  unfold credit nullishAssign
  cases hg : getOwn m user with
  | some v => simp [get, hg]
  | none =>
    have hn : user ∉ m.map (fun e => e.1) := (getOwn_eq_none m user).1 hg
    have hi : user ∉ objectPrototypeKeys := h.resolve_left hn
    have hg2 : getOwn (m ++ [(user, (emptyScores : Scores ν))]) user = some emptyScores := by
      unfold getOwn at hg ⊢
      have hf : List.find? (fun e => e.1 == user) m = none := by
        cases hfm : List.find? (fun e => e.1 == user) m with
        | none => rfl
        | some x => rw [hfm] at hg; cases hg
      rw [List.find?_append, hf]
      simp
    simp [get, hg, hi, hg2]

/-! ## One credit -/

theorem resolveUser_lower {ν : Type} (lower : String → String) (m : PlainObject (Scores ν))
    (n : String) : lower (resolveUser lower m n) = lower n := by
  unfold resolveUser
  cases hf : (ownKeys m).find? (fun u => lower u == lower n) with
  | none => rfl
  | some u =>
    have hu := List.find?_some hf
    simp only [beq_iff_eq] at hu
    by_cases h0 : u = ""
    · simp [h0]
    · simp [h0, hu]

theorem resolveUser_cases {ν : Type} (lower : String → String)
    (hlower : ∀ s, lower s = lower "" → s = "") (m : PlainObject (Scores ν)) (n : String) :
    resolveUser lower m n ∈ m.map (fun e => e.1) ∨
    (resolveUser lower m n = n ∧ ∀ k ∈ m.map (fun e => e.1), lower k ≠ lower n) := by
  unfold resolveUser
  cases hf : (ownKeys m).find? (fun u => lower u == lower n) with
  | none =>
    right
    refine ⟨rfl, ?_⟩
    intro k hk
    have := List.find?_eq_none.1 hf k ((mem_ownKeys m k).2 hk)
    simpa using this
  | some u =>
    left
    have hu := List.find?_some hf
    simp only [beq_iff_eq] at hu
    have hmem : u ∈ m.map (fun e => e.1) := (mem_ownKeys m u).1 (List.mem_of_find?_eq_some hf)
    by_cases h0 : u = ""
    · subst h0
      have hn : n = "" := hlower n hu.symm
      subst hn
      simpa using hmem
    · simpa [h0] using hmem

/-- The two ways in which one credit succeeds. -/
theorem applyCredit_ok {ν : Type} (lower : String → String)
    (hlower : ∀ s, lower s = lower "" → s = "") (m m2 : PlainObject (Scores ν))
    (e : String × Contribution ν) (h : applyCredit lower m e = .ok m2) :
    (∃ k ∈ m.map (fun x => x.1), lower k = lower e.1 ∧ m2 = modifyOwn m k e.2.push) ∨
    ((∀ k ∈ m.map (fun x => x.1), lower k ≠ lower e.1) ∧ e.1 ∉ objectPrototypeKeys ∧
      m2 = m ++ [(e.1, e.2.push emptyScores)]) := by
  unfold applyCredit at h
  rcases credit_ok m m2 _ _ h with ⟨hmem, hm2⟩ | ⟨hnot, hproto, hm2⟩
  · exact Or.inl ⟨_, hmem, resolveUser_lower lower m e.1, hm2⟩
  · rcases resolveUser_cases lower hlower m e.1 with hin | ⟨heq, hno⟩
    · exact absurd hin hnot
    · rw [heq] at hproto hm2
      exact Or.inr ⟨hno, hproto, hm2⟩

theorem push_contributions {ν : Type} (c : Contribution ν) (s : Scores ν) :
    (c.push s).contributions.Perm (s.contributions ++ [c]) := by
  cases c with
  | verified v =>
    simp only [Contribution.push, Scores.contributions, List.map_append, List.map_cons,
      List.map_nil, List.append_assoc]
    exact List.Perm.append_left _ (List.perm_append_comm.trans (by rw [List.append_assoc]))
  | completed v =>
    simp only [Contribution.push, Scores.contributions, List.map_append, List.map_cons,
      List.map_nil, List.append_assoc]
    exact List.Perm.append_left _ (List.Perm.append_left _ List.perm_append_comm)
  | progressed v =>
    simp only [Contribution.push, Scores.contributions, List.map_append, List.map_cons,
      List.map_nil, List.append_assoc]
    exact List.Perm.refl _

theorem modifyOwn_contributions {ν : Type} (c : Contribution ν) (k : String) :
    ∀ (m : PlainObject (Scores ν)), (m.map (fun e => e.1)).Nodup → k ∈ m.map (fun e => e.1) →
      ((modifyOwn m k c.push).flatMap (fun e => e.2.contributions)).Perm
        (m.flatMap (fun e => e.2.contributions) ++ [c])
  | [], _, hk => by simp at hk
  | e :: m, hnd, hk => by
    rw [List.map_cons, List.nodup_cons] at hnd
    by_cases hek : e.1 = k
    · have hk2 : k ∉ m.map (fun e => e.1) := hek ▸ hnd.1
      have hrest := modifyOwn_of_not_mem m k c.push hk2
      unfold modifyOwn at hrest ⊢
      rw [List.map_cons, hrest]
      simp only [hek, if_true, List.flatMap_cons]
      have h1 := push_contributions c e.2
      exact (h1.append_right _).trans (by
        rw [List.append_assoc, List.append_assoc]
        exact List.Perm.append_left _ List.perm_append_comm)
    · have hk2 : k ∈ m.map (fun e => e.1) := by
        rw [List.map_cons, List.mem_cons] at hk
        rcases hk with hk | hk
        · exact absurd hk.symm hek
        · exact hk
      have ih := modifyOwn_contributions c k m hnd.2 hk2
      unfold modifyOwn at ih ⊢
      rw [List.map_cons]
      simp only [hek, if_false, List.flatMap_cons, List.append_assoc]
      exact List.Perm.append_left _ ih

/-! ## The invariant of the fold -/

theorem scoresOf_append_hit {ν : Type} (lower : String → String)
    (evs : List (String × Contribution ν)) (n : String) (c : Contribution ν) (k : String)
    (h : lower n = lower k) :
    scoresOf lower (evs ++ [(n, c)]) k = c.push (scoresOf lower evs k) := by
  unfold scoresOf
  cases c <;>
    simp [List.filter_append, List.filter_cons, h, Contribution.push, Contribution.asVerified,
      Contribution.asCompleted, Contribution.asProgressed]

theorem scoresOf_append_miss {ν : Type} (lower : String → String)
    (evs : List (String × Contribution ν)) (n : String) (c : Contribution ν) (k : String)
    (h : lower n ≠ lower k) :
    scoresOf lower (evs ++ [(n, c)]) k = scoresOf lower evs k := by
  unfold scoresOf
  simp [List.filter_append, List.filter_cons, h]

theorem scoresOf_fresh {ν : Type} (lower : String → String)
    (evs : List (String × Contribution ν)) (k : String)
    (h : ∀ e ∈ evs, lower e.1 ≠ lower k) : scoresOf lower evs k = emptyScores := by
  have hf : evs.filter (fun e => lower e.1 == lower k) = [] := by
    rw [List.filter_eq_nil_iff]
    intro e he
    simpa using h e he
  unfold scoresOf emptyScores
  rw [hf]
  rfl

theorem FoldInv.nil {ν : Type} (lower : String → String) :
    FoldInv lower ([] : List (String × Contribution ν)) [] where
  distinct := List.Pairwise.nil
  scores := by simp
  covered := by simp
  first := by simp
  contribs := by simp

theorem FoldInv.nodup {ν : Type} {lower : String → String} {evs : List (String × Contribution ν)}
    {m : PlainObject (Scores ν)} (inv : FoldInv lower evs m) : (m.map (fun e => e.1)).Nodup :=
  inv.distinct.imp (fun h heq => h (congrArg lower heq))

theorem FoldInv.lower_inj {ν : Type} {lower : String → String}
    {evs : List (String × Contribution ν)} {m : PlainObject (Scores ν)} (inv : FoldInv lower evs m)
    {a b : String} (ha : a ∈ m.map (fun e => e.1)) (hb : b ∈ m.map (fun e => e.1))
    (h : lower a = lower b) : a = b := by
  by_contra hne
  exact List.Pairwise.forall (fun {x y} (hxy : lower x ≠ lower y) => Ne.symm hxy)
    inv.distinct ha hb hne h

/-- One more credit keeps the invariant. -/
theorem FoldInv.step {ν : Type} {lower : String → String}
    (hlower : ∀ s, lower s = lower "" → s = "") {evs : List (String × Contribution ν)}
    {m m2 : PlainObject (Scores ν)} (inv : FoldInv lower evs m) (e : String × Contribution ν)
    (h : applyCredit lower m e = .ok m2) : FoldInv lower (evs ++ [e]) m2 := by
  obtain ⟨n, c⟩ := e
  rcases applyCredit_ok lower hlower m m2 (n, c) h with ⟨k, hk, hkn, hm2⟩ | ⟨hno, _, hm2⟩
  · subst hm2
    simp only at hkn
    refine ⟨?_, ?_, ?_, ?_, ?_⟩
    · rw [modifyOwn_keys]
      exact inv.distinct
    · intro e2 he2
      unfold modifyOwn at he2
      rw [List.mem_map] at he2
      obtain ⟨e1, he1, rfl⟩ := he2
      have hs := inv.scores e1 he1
      by_cases h1 : e1.1 = k
      · simp only [h1, if_true]
        rw [scoresOf_append_hit lower evs n c k hkn.symm, ← h1, ← hs]
      · simp only [h1, if_false]
        have hne : lower n ≠ lower e1.1 := by
          intro heq
          exact h1 (inv.lower_inj (List.mem_map.2 ⟨e1, he1, rfl⟩) hk (heq.symm.trans hkn.symm))
        rw [scoresOf_append_miss lower evs n c e1.1 hne]
        exact hs
    · intro e2 he2
      rw [modifyOwn_keys]
      rw [List.mem_append, List.mem_singleton] at he2
      rcases he2 with he2 | rfl
      · exact inv.covered e2 he2
      · exact ⟨k, hk, hkn⟩
    · intro k2 hk2
      rw [modifyOwn_keys] at hk2
      rw [List.map_append, List.find?_append, inv.first k2 hk2]
      rfl
    · have := modifyOwn_contributions c k m inv.nodup hk
      refine this.trans ?_
      rw [List.map_append]
      exact List.Perm.append_right _ inv.contribs
  · subst hm2
    simp only at hno
    have hfresh : ∀ e ∈ evs, lower e.1 ≠ lower n := by
      intro e he heq
      obtain ⟨k, hk, hke⟩ := inv.covered e he
      exact hno k hk (hke.trans heq)
    refine ⟨?_, ?_, ?_, ?_, ?_⟩
    · rw [List.map_append, List.pairwise_append]
      refine ⟨inv.distinct, by simp, ?_⟩
      intro a ha b hb
      simp only [List.map_cons, List.map_nil, List.mem_singleton] at hb
      subst hb
      exact hno a ha
    · intro e2 he2
      rw [List.mem_append, List.mem_singleton] at he2
      rcases he2 with he2 | rfl
      · have hne : lower n ≠ lower e2.1 :=
          fun heq => hno e2.1 (List.mem_map.2 ⟨e2, he2, rfl⟩) heq.symm
        rw [scoresOf_append_miss lower evs n c e2.1 hne]
        exact inv.scores e2 he2
      · simp only
        rw [scoresOf_append_hit lower evs n c n rfl, scoresOf_fresh lower evs n hfresh]
    · intro e2 he2
      rw [List.mem_append, List.mem_singleton] at he2
      rcases he2 with he2 | rfl
      · obtain ⟨k, hk, hke⟩ := inv.covered e2 he2
        exact ⟨k, by rw [List.map_append]; exact List.mem_append_left _ hk, hke⟩
      · exact ⟨n, by simp, rfl⟩
    · intro k2 hk2
      rw [List.map_append, List.mem_append] at hk2
      rw [List.map_append, List.find?_append]
      rcases hk2 with hk2 | hk2
      · rw [inv.first k2 hk2]
        rfl
      · simp only [List.map_cons, List.map_nil, List.mem_singleton] at hk2
        subst hk2
        have hnone : (evs.map (fun e => e.1)).find? (fun u => lower u == lower k2) = none := by
          rw [List.find?_eq_none]
          intro x hx
          rw [List.mem_map] at hx
          obtain ⟨e, he, rfl⟩ := hx
          simpa using hfresh e he
        rw [hnone]
        simp
    · rw [List.flatMap_append, List.map_append]
      refine List.Perm.append inv.contribs ?_
      simp only [List.flatMap_cons, List.flatMap_nil, List.append_nil, List.map_cons, List.map_nil]
      refine (push_contributions c emptyScores).trans ?_
      simp [Scores.contributions, emptyScores]

/-- The invariant holds of every `scoreMap` that the credits produce from the empty object. -/
theorem foldlM_applyCredit_inv {ν : Type} (lower : String → String)
    (hlower : ∀ s, lower s = lower "" → s = "") (evs : List (String × Contribution ν)) :
    ∀ m, evs.foldlM (applyCredit lower) [] = .ok m → FoldInv lower evs m := by
  induction evs using List.reverseRecOn with
  | nil =>
    intro m h
    simp only [List.foldlM_nil, pure, Except.pure, Except.ok.injEq] at h
    subst h
    exact FoldInv.nil lower
  | append_singleton evs e ih =>
    intro m h
    rw [List.foldlM_append] at h
    cases hm : evs.foldlM (applyCredit lower) [] with
    | error err =>
      rw [hm] at h
      cases h
    | ok m1 =>
      rw [hm] at h
      have h2 : applyCredit lower m1 e = .ok m := by
        simp only [List.foldlM_cons, List.foldlM_nil, bind, Except.bind] at h
        cases hstep : applyCredit lower m1 e with
        | error err => rw [hstep] at h; cases h
        | ok m3 =>
          rw [hstep] at h
          simp only [pure, Except.pure] at h
          exact h
      exact (ih m1 hm).step hlower e h2

/-! ## The fold of `fetchLeaderboard` is the sequence of its credits -/

theorem creditVerifier_eq {ν : Type} [LinearOrderedRing ν] (lower : String → String)
    (score : Nat → ν → ν → ν) (level : Level ν) (rank : Nat) (m : PlainObject (Scores ν)) :
    creditVerifier lower score level rank m
      = applyCredit lower m (level.verifier, .verified (verifiedEntry score rank level)) := rfl

theorem creditRecord_eq {ν : Type} [LinearOrderedRing ν] (lower : String → String)
    (score : Nat → ν → ν → ν) (level : Level ν) (rank : Nat) (m : PlainObject (Scores ν))
    (record : Record ν) :
    creditRecord lower score level rank m record
      = applyCredit lower m (recordCredit score rank level record) := by
  unfold creditRecord recordCredit applyCredit
  by_cases h : record.percent = 100
  · simp only [h, if_true]
    rfl
  · simp only [h, if_false]
    rfl

theorem foldlM_creditRecord {ν : Type} [LinearOrderedRing ν] (lower : String → String)
    (score : Nat → ν → ν → ν) (level : Level ν) (rank : Nat) :
    ∀ (records : List (Record ν)) (m : PlainObject (Scores ν)),
      records.foldlM (creditRecord lower score level rank) m
        = (records.map (recordCredit score rank level)).foldlM (applyCredit lower) m
  | [], m => rfl
  | r :: rs, m => by
    rw [List.map_cons, List.foldlM_cons, List.foldlM_cons, creditRecord_eq]
    cases applyCredit lower m (recordCredit score rank level r) with
    | error e => rfl
    | ok m1 => exact foldlM_creditRecord lower score level rank rs m1

/-- A slot whose `err` is truthy only adds its identifier to `errs`. -/
theorem processSlot_failed {ν : Type} [LinearOrderedRing ν] (lower : String → String)
    (score : Nat → ν → ν → ν) (acc : PlainObject (Scores ν) × List String)
    (slot : Nat × LoadResult ν) (h : truthy slot.2.2 = true) :
    processSlot lower score acc slot = .ok (acc.1, acc.2 ++ [slot.2.2.getD ""]) := by
  unfold processSlot
  simp [h]

/-- A slot with a falsy `err` and a level applies the credits of that level. -/
theorem processSlot_loaded {ν : Type} [LinearOrderedRing ν] (lower : String → String)
    (score : Nat → ν → ν → ν) (acc : PlainObject (Scores ν) × List String)
    (slot : Nat × LoadResult ν) (level : Level ν) (h : truthy slot.2.2 = false)
    (hl : slot.2.1 = some level) :
    processSlot lower score acc slot =
      match (levelCredits score (slot.1, level)).foldlM (applyCredit lower) acc.1 with
      | .ok m => .ok (m, acc.2)
      | .error e => .error e := by
  unfold processSlot levelCredits
  simp only [h, hl, Bool.false_eq_true, if_false, List.foldlM_cons, creditVerifier_eq,
    foldlM_creditRecord]
  cases applyCredit lower acc.1 (level.verifier, .verified (verifiedEntry score slot.1 level)) with
  | error e => rfl
  | ok m1 =>
    simp only [bind, Except.bind]
    cases List.foldlM (applyCredit lower) m1
        (List.map (recordCredit score slot.1 level) level.records) with
    | error e => rfl
    | ok m2 => rfl

/-- A slot with a falsy `err` and a `null` level makes the callback throw. -/
theorem processSlot_null {ν : Type} [LinearOrderedRing ν] (lower : String → String)
    (score : Nat → ν → ν → ν) (acc : PlainObject (Scores ν) × List String)
    (slot : Nat × LoadResult ν) (h : truthy slot.2.2 = false) (hl : slot.2.1 = none) :
    processSlot lower score acc slot = .error .typeError := by
  unfold processSlot
  simp [h, hl]

theorem failedIds_cons_true {ν : Type} (slot : LoadResult ν) (l : List (LoadResult ν))
    (h : truthy slot.2 = true) : failedIds (slot :: l) = slot.2.getD "" :: failedIds l := by
  unfold failedIds
  simp [List.filter_cons, h]

theorem failedIds_cons_false {ν : Type} (slot : LoadResult ν) (l : List (LoadResult ν))
    (h : truthy slot.2 = false) : failedIds (slot :: l) = failedIds l := by
  unfold failedIds
  simp [List.filter_cons, h]

theorem foldlM_processSlot {ν : Type} [LinearOrderedRing ν] (lower : String → String)
    (score : Nat → ν → ν → ν) :
    ∀ (l : List (LoadResult ν)) (i : Nat) (acc : PlainObject (Scores ν) × List String),
      Shaped l →
      (l.enumFrom i).foldlM (processSlot lower score) acc =
        match (((l.enumFrom i).filterMap loadedSlot).flatMap (levelCredits score)).foldlM
            (applyCredit lower) acc.1 with
        | .ok m => .ok (m, acc.2 ++ failedIds l)
        | .error e => .error e
  | [], i, acc, _ => by
    simp [failedIds, pure, Except.pure]
  | slot :: l, i, acc, hs => by
    have hs2 : Shaped l := fun s h => hs s (List.mem_cons_of_mem _ h)
    rw [List.enumFrom_cons, List.foldlM_cons]
    cases ht : truthy slot.2 with
    | true =>
      rw [processSlot_failed lower score acc (i, slot) ht]
      have hload : loadedSlot (i, slot) = none := by simp [loadedSlot, ht]
      rw [List.filterMap_cons_none hload, failedIds_cons_true slot l ht]
      show (l.enumFrom (i + 1)).foldlM (processSlot lower score)
        (acc.1, acc.2 ++ [slot.2.getD ""]) = _
      rw [foldlM_processSlot lower score l (i + 1) _ hs2]
      simp
    | false =>
      have hsome : slot.1.isSome = true := by
        rcases hs slot (List.mem_cons_self _ _) with h | h
        · rw [ht] at h; cases h
        · exact h
      obtain ⟨level, hl⟩ := Option.isSome_iff_exists.1 hsome
      rw [processSlot_loaded lower score acc (i, slot) level ht hl]
      have hload : loadedSlot (i, slot) = some (i, level) := by simp [loadedSlot, ht, hl]
      rw [List.filterMap_cons_some hload, List.flatMap_cons, List.foldlM_append,
        failedIds_cons_false slot l ht]
      cases (levelCredits score (i, level)).foldlM (applyCredit lower) acc.1 with
      | error e => rfl
      | ok m1 =>
        show (l.enumFrom (i + 1)).foldlM (processSlot lower score) (m1, acc.2) = _
        rw [foldlM_processSlot lower score l (i + 1) _ hs2]
        rfl

theorem foldlM_processSlot_shaped {ν : Type} [LinearOrderedRing ν] (lower : String → String)
    (score : Nat → ν → ν → ν) :
    ∀ (l : List (LoadResult ν)) (i : Nat) (acc r : PlainObject (Scores ν) × List String),
      (l.enumFrom i).foldlM (processSlot lower score) acc = .ok r → Shaped l
  | [], _, _, _, _ => by
    intro slot h
    cases h
  | slot :: l, i, acc, r, h => by
    rw [List.enumFrom_cons, List.foldlM_cons] at h
    cases hp : processSlot lower score acc (i, slot) with
    | error e => rw [hp] at h; cases h
    | ok acc2 =>
      rw [hp] at h
      have ih := foldlM_processSlot_shaped lower score l (i + 1) acc2 r h
      intro s hs
      rw [List.mem_cons] at hs
      rcases hs with rfl | hs
      · cases ht : truthy s.2 with
        | true => exact Or.inl rfl
        | false =>
          right
          cases hl : s.1 with
          | none =>
            rw [processSlot_null lower score acc (i, s) ht hl] at hp
            cases hp
          | some level => rfl
      · exact ih s hs

/-- On a shaped list the fold is the sequence of credits, and `errs` the failed identifiers. -/
theorem foldList_eq {ν : Type} [LinearOrderedRing ν] (lower : String → String)
    (score : Nat → ν → ν → ν) (list : List (LoadResult ν)) (hs : Shaped list) :
    foldList lower score list =
      match (listCredits score list).foldlM (applyCredit lower) [] with
      | .ok m => .ok (m, failedIds list)
      | .error e => .error e := by
  unfold foldList listCredits loadedLevels List.enum
  rw [foldlM_processSlot lower score list 0 ([], []) hs]
  simp

/-- When the fold returns, its list was shaped, `scoreMap` is the result of the credits and `errs`
holds the failed identifiers. -/
theorem foldList_ok {ν : Type} [LinearOrderedRing ν] (lower : String → String)
    (score : Nat → ν → ν → ν) (list : List (LoadResult ν)) (m : PlainObject (Scores ν))
    (errs : List String) (h : foldList lower score list = .ok (m, errs)) :
    Shaped list ∧ (listCredits score list).foldlM (applyCredit lower) [] = .ok m
      ∧ errs = failedIds list := by
  have hs : Shaped list := foldlM_processSlot_shaped lower score list 0 ([], []) (m, errs) h
  refine ⟨hs, ?_⟩
  rw [foldList_eq lower score list hs] at h
  cases hc : (listCredits score list).foldlM (applyCredit lower) [] with
  | error e => rw [hc] at h; cases h
  | ok m1 =>
    rw [hc] at h
    simp only [Except.ok.injEq, Prod.mk.injEq] at h
    exact ⟨by rw [h.1], h.2.symm⟩

/-! ## The returned pair -/

theorem assignPacks_eq_map {ν : Type} (packs : Option (List Pack)) (res : List (Player ν)) :
    assignPacks packs res = res.map (setPacks packs) := by
  cases packs <;> rfl

theorem setPacks_entry {ν : Type} (packs : Option (List Pack)) (p : Player ν) :
    (setPacks packs p).entry = p.entry := by
  cases packs <;> rfl

theorem toPlayer_entry {ν : Type} [LinearOrderedRing ν] (round : ν → ν) (e : String × Scores ν) :
    (toPlayer round e).entry = e := rfl

theorem arraySort_perm {α ν : Type} [LinearOrderedRing ν] (cmp : α → α → ν) (xs : List α) :
    (arraySort cmp xs).Perm xs :=
  List.perm_insertionSort _ xs

/-- What `fetchLeaderboardFrom` returns when it returns a pair. -/
theorem fetchLeaderboardFrom_ok {ν : Type} [LinearOrderedRing ν] (lower : String → String)
    (score : Nat → ν → ν → ν) (round : ν → ν) (list : List (LoadResult ν))
    (packs : Option (List Pack)) (players : List (Player ν)) (errs : List String)
    (h : fetchLeaderboardFrom lower score round (some list) packs = .ok (some (players, errs))) :
    ∃ m, foldList lower score list = .ok (m, errs) ∧
      players = arraySort (fun a b => b.total - a.total)
        ((buildPlayers round m).map (setPacks packs)) := by
  simp only [fetchLeaderboardFrom] at h
  cases hf : foldList lower score list with
  | error e => rw [hf] at h; cases h
  | ok r =>
    obtain ⟨m, errs2⟩ := r
    rw [hf] at h
    simp only [Except.ok.injEq, Option.some.injEq, Prod.mk.injEq] at h
    refine ⟨m, by rw [h.2], ?_⟩
    rw [← assignPacks_eq_map]
    exact h.1.symm

/-- The returned players are, up to order, the players built from the entries of `scoreMap`. -/
theorem players_perm {ν : Type} [LinearOrderedRing ν] (round : ν → ν)
    (m : PlainObject (Scores ν)) (packs : Option (List Pack)) :
    (arraySort (fun a b => b.total - a.total) ((buildPlayers round m).map (setPacks packs))).Perm
      (m.map (fun e => setPacks packs (toPlayer round e))) := by
  refine (arraySort_perm _ _).trans ?_
  unfold buildPlayers
  rw [List.map_map]
  exact (ownEntries_perm m).map _

theorem players_entry_perm {ν : Type} [LinearOrderedRing ν] (round : ν → ν)
    (m : PlainObject (Scores ν)) (packs : Option (List Pack)) :
    ((arraySort (fun a b => b.total - a.total)
      ((buildPlayers round m).map (setPacks packs))).map Player.entry).Perm m := by
  refine ((players_perm round m packs).map _).trans ?_
  rw [List.map_map]
  have : (Player.entry ∘ fun e => setPacks packs (toPlayer round e)) = id := by
    funext e
    simp [setPacks_entry, toPlayer_entry]
  rw [this, List.map_id]

/-- What the returned pair is made of, once the invariant of the fold is known. -/
theorem returned_inv {ν : Type} [LinearOrderedRing ν] (lower : String → String)
    (hlower : ∀ s, lower s = lower "" → s = "") (score : Nat → ν → ν → ν) (round : ν → ν)
    (list : List (LoadResult ν)) (packs : Option (List Pack)) (players : List (Player ν))
    (errs : List String)
    (h : fetchLeaderboardFrom lower score round (some list) packs = .ok (some (players, errs))) :
    ∃ m, foldList lower score list = .ok (m, errs) ∧ FoldInv lower (listCredits score list) m ∧
      players.Perm (m.map (fun e => setPacks packs (toPlayer round e))) ∧
      (players.map Player.entry).Perm m ∧ errs = failedIds list := by
  obtain ⟨m, hf, hp⟩ := fetchLeaderboardFrom_ok lower score round list packs players errs h
  obtain ⟨_, hc, he⟩ := foldList_ok lower score list m errs hf
  refine ⟨m, hf, foldlM_applyCredit_inv lower hlower _ m hc, ?_, ?_, he⟩
  · rw [hp]
    exact players_perm round m packs
  · rw [hp]
    exact players_entry_perm round m packs

theorem mem_scoresOf_contributions {ν : Type} (lower : String → String)
    (evs : List (String × Contribution ν)) (e : String × Contribution ν) (k : String)
    (he : e ∈ evs) (hk : lower e.1 = lower k) : e.2 ∈ (scoresOf lower evs k).contributions := by
  have hf : e ∈ evs.filter (fun x => lower x.1 == lower k) := by
    rw [List.mem_filter]
    exact ⟨he, by simpa using hk⟩
  unfold Scores.contributions scoresOf
  obtain ⟨n, c⟩ := e
  cases c with
  | verified v =>
    refine List.mem_append_left _ (List.mem_append_left _ ?_)
    exact List.mem_map.2 ⟨v, List.mem_filterMap.2 ⟨(n, .verified v), hf, rfl⟩, rfl⟩
  | completed v =>
    refine List.mem_append_left _ (List.mem_append_right _ ?_)
    exact List.mem_map.2 ⟨v, List.mem_filterMap.2 ⟨(n, .completed v), hf, rfl⟩, rfl⟩
  | progressed v =>
    refine List.mem_append_right _ ?_
    exact List.mem_map.2 ⟨v, List.mem_filterMap.2 ⟨(n, .progressed v), hf, rfl⟩, rfl⟩

theorem entry_contributions {ν : Type} (p : Player ν) :
    p.entry.2.contributions = p.contributions := rfl

/-- Every credit is held by the player whose name is its first-seen spelling. -/
theorem credited_to_firstSeen {ν : Type} [LinearOrderedRing ν] (lower : String → String)
    (evs : List (String × Contribution ν)) (m : PlainObject (Scores ν))
    (players : List (Player ν)) (inv : FoldInv lower evs m)
    (hperm : (players.map Player.entry).Perm m) (e : String × Contribution ν) (he : e ∈ evs) :
    ∃ p ∈ players, p.user = firstSeen lower (evs.map (fun x => x.1)) e.1
      ∧ e.2 ∈ p.contributions := by
  obtain ⟨k, hk, hke⟩ := inv.covered e he
  obtain ⟨x, hx, hxk⟩ := List.mem_map.1 hk
  obtain ⟨p, hp, hpx⟩ := List.mem_map.1 (hperm.mem_iff.2 hx)
  refine ⟨p, hp, ?_, ?_⟩
  · have hfirst := inv.first k hk
    unfold firstSeen
    have hpred : (fun u => lower u == lower e.1) = (fun u => lower u == lower k) := by
      funext u
      rw [hke]
    rw [hpred, hfirst]
    simp only [Option.getD_some]
    rw [← hxk, ← hpx]
    rfl
  · rw [← entry_contributions, hpx, inv.scores x hx, hxk]
    exact mem_scoresOf_contributions lower evs e k he hke.symm

/-! ## Identity resolution -/

theorem asciiLower_empty (s : String) (h : asciiLower s = asciiLower "") : s = "" := by
  unfold asciiLower at h
  have hd : s.data.map Char.toLower = [] := by
    have := congrArg String.data h
    simpa using this
  have : s.data = [] := List.map_eq_nil_iff.1 hd
  exact String.ext this

theorem listCredits_names {ν : Type} [LinearOrderedRing ν] (score : Nat → ν → ν → ν)
    (list : List (LoadResult ν)) :
    (listCredits score list).map (fun e => e.1) = foldNames list := by
  unfold listCredits foldNames
  rw [List.map_flatMap]
  congr 1
  funext il
  simp only [levelCredits, List.map_cons, List.map_map]
  congr 1

theorem verified_mem_contributions {ν : Type} (p : Player ν) (v : Verified ν) :
    Contribution.verified v ∈ p.contributions ↔ v ∈ p.verified := by
  simp [Player.contributions]

theorem completed_mem_contributions {ν : Type} (p : Player ν) (v : Completed ν) :
    Contribution.completed v ∈ p.contributions ↔ v ∈ p.completed := by
  simp [Player.contributions]

theorem progressed_mem_contributions {ν : Type} (p : Player ν) (v : Progressed ν) :
    Contribution.progressed v ∈ p.contributions ↔ v ∈ p.progressed := by
  simp [Player.contributions]

theorem verifier_mem_listCredits {ν : Type} [LinearOrderedRing ν] (score : Nat → ν → ν → ν)
    (list : List (LoadResult ν)) (il : Nat × Level ν) (h : il ∈ loadedLevels list) :
    (il.2.verifier, Contribution.verified (verifiedEntry score il.1 il.2))
      ∈ listCredits score list :=
  List.mem_flatMap.2 ⟨il, h, List.mem_cons_self _ _⟩

theorem record_mem_listCredits {ν : Type} [LinearOrderedRing ν] (score : Nat → ν → ν → ν)
    (list : List (LoadResult ν)) (il : Nat × Level ν) (h : il ∈ loadedLevels list)
    (record : Record ν) (hr : record ∈ il.2.records) :
    recordCredit score il.1 il.2 record ∈ listCredits score list :=
  List.mem_flatMap.2 ⟨il, h, List.mem_cons_of_mem _ (List.mem_map.2 ⟨record, hr, rfl⟩)⟩

/-- C1. Whenever `fetchLeaderboard` returns a leaderboard for a list of load results, the
verification of every loaded level and the contribution of every record are held by the player
whose `user` is the first-seen spelling of the name, that is the first name of the fold (levels in
list order, the verifier and then the records of each) equal to it after lower-casing; and no two
returned players have `user` values equal after lower-casing. -/
theorem identity_resolution {ν : Type} [LinearOrderedRing ν] (lower : String → String)
    (hlower : ∀ s, lower s = lower "" → s = "") (score : Nat → ν → ν → ν) (round : ν → ν)
    (list : List (LoadResult ν)) (packs : Option (List Pack)) (players : List (Player ν))
    (errs : List String)
    (h : fetchLeaderboardFrom lower score round (some list) packs = .ok (some (players, errs))) :
    (∀ il ∈ loadedLevels list,
      (∃ p ∈ players, p.user = firstSeen lower (foldNames list) il.2.verifier ∧
        verifiedEntry score il.1 il.2 ∈ p.verified) ∧
      ∀ record ∈ il.2.records,
        ∃ p ∈ players, p.user = firstSeen lower (foldNames list) record.user ∧
          (record.percent = 100 → completedEntry score il.1 il.2 record ∈ p.completed) ∧
          (record.percent ≠ 100 → progressedEntry score il.1 il.2 record ∈ p.progressed)) ∧
    players.Pairwise (fun p q => lower p.user ≠ lower q.user) := by
  obtain ⟨m, _, inv, _, hentry, _⟩ :=
    returned_inv lower hlower score round list packs players errs h
  refine ⟨?_, ?_⟩
  · intro il hil
    refine ⟨?_, ?_⟩
    · obtain ⟨p, hp, hu, hc⟩ := credited_to_firstSeen lower _ m players inv hentry _
        (verifier_mem_listCredits score list il hil)
      rw [listCredits_names] at hu
      exact ⟨p, hp, hu, (verified_mem_contributions p _).1 hc⟩
    · intro record hr
      obtain ⟨p, hp, hu, hc⟩ := credited_to_firstSeen lower _ m players inv hentry _
        (record_mem_listCredits score list il hil record hr)
      rw [listCredits_names] at hu
      refine ⟨p, hp, hu, ?_, ?_⟩
      · intro h100
        simp only [recordCredit, h100, if_true] at hc
        exact (completed_mem_contributions p _).1 hc
      · intro h100
        simp only [recordCredit, h100, if_false] at hc
        exact (progressed_mem_contributions p _).1 hc
  · have hkeys : (players.map (fun p => p.user)).Perm (m.map (fun e => e.1)) := by
      have := hentry.map (fun e => e.1)
      rw [List.map_map] at this
      exact this
    have hpw : (players.map (fun p => p.user)).Pairwise (fun a b => lower a ≠ lower b) :=
      (hkeys.pairwise_iff (fun {x y} (hxy : lower x ≠ lower y) => Ne.symm hxy)).2 inv.distinct
    rw [List.pairwise_map] at hpw
    exact hpw

/-- C1, on records by `Foo`, `foo` and `FOO` on three levels: one player, named `Foo`. -/
theorem identity_resolution_witness :
    fetchLeaderboardFrom asciiLower demoScore id (some fooList) none
        = .ok (some (fooPlayers, [])) ∧
    ((∀ il ∈ loadedLevels fooList,
      (∃ p ∈ fooPlayers, p.user = firstSeen asciiLower (foldNames fooList) il.2.verifier ∧
        verifiedEntry demoScore il.1 il.2 ∈ p.verified) ∧
      ∀ record ∈ il.2.records,
        ∃ p ∈ fooPlayers, p.user = firstSeen asciiLower (foldNames fooList) record.user ∧
          (record.percent = 100 → completedEntry demoScore il.1 il.2 record ∈ p.completed) ∧
          (record.percent ≠ 100 →
            progressedEntry demoScore il.1 il.2 record ∈ p.progressed)) ∧
    fooPlayers.Pairwise (fun p q => asciiLower p.user ≠ asciiLower q.user)) ∧
    (fooPlayers.filter (fun p => asciiLower p.user == "foo")).map (fun p => p.user) = ["Foo"] :=
  ⟨by decide,
   identity_resolution asciiLower asciiLower_empty demoScore id fooList none fooPlayers []
     (by decide),
   by decide⟩

/-! ## Pack completion -/

theorem packCompleted_iff {ν : Type} (q : Player ν) (pack : Pack) :
    packCompleted q pack = true ↔
      (pack.levels.getD [] ≠ [] ∧
        ∀ id ∈ pack.levels.getD [], id ≠ "" ∧ ∃ c ∈ q.completed, c.levelPath = id) := by
  unfold packCompleted completedIds
  cases hl : pack.levels.getD [] with
  | nil => simp
  | cons x xs =>
    simp only [List.length_cons, Nat.add_one_ne_zero, if_false, List.all_eq_true,
      decide_eq_true_eq, List.mem_filter, List.mem_map, bne_iff_ne, ne_eq, not_false_eq_true,
      true_and, reduceCtorEq]
    constructor
    · intro h id hid
      obtain ⟨⟨c, hc, hcp⟩, hne⟩ := h id hid
      exact ⟨hne, c, hc, hcp⟩
    · intro h id hid
      obtain ⟨hne, c, hc, hcp⟩ := h id hid
      exact ⟨⟨c, hc, hcp⟩, hne⟩

theorem mem_players {ν : Type} [LinearOrderedRing ν] (lower : String → String)
    (score : Nat → ν → ν → ν) (round : ν → ν) (list : List (LoadResult ν))
    (packs : Option (List Pack)) (players : List (Player ν)) (errs : List String)
    (h : fetchLeaderboardFrom lower score round (some list) packs = .ok (some (players, errs)))
    (p : Player ν) (hp : p ∈ players) :
    ∃ m e, foldList lower score list = .ok (m, errs) ∧ e ∈ m ∧
      p = setPacks packs (toPlayer round e) := by
  obtain ⟨m, hf, hpl⟩ := fetchLeaderboardFrom_ok lower score round list packs players errs h
  rw [hpl] at hp
  obtain ⟨e, he, hpe⟩ := List.mem_map.1 ((players_perm round m packs).mem_iff.1 hp)
  exact ⟨m, e, hf, he, hpe.symm⟩

/-- C2, amended. When the pack catalog is available, a pack of the catalog is in a returned
player's `packs` if and only if it has at least one level and every one of its level identifiers
is a non-empty string that is the `levelPath` of one of the player's `completed` contributions. -/
theorem pack_completion {ν : Type} [LinearOrderedRing ν] (lower : String → String)
    (score : Nat → ν → ν → ν) (round : ν → ν) (list : List (LoadResult ν))
    (catalog : List Pack) (players : List (Player ν)) (errs : List String)
    (h : fetchLeaderboardFrom lower score round (some list) (some catalog)
      = .ok (some (players, errs))) :
    ∀ p ∈ players, ∀ pack ∈ catalog,
      (pack ∈ p.packs ↔
        (pack.levels.getD [] ≠ [] ∧
          ∀ id ∈ pack.levels.getD [], id ≠ "" ∧ ∃ c ∈ p.completed, c.levelPath = id)) := by
  intro p hp pack hpack
  obtain ⟨m, e, _, _, hpe⟩ :=
    mem_players lower score round list (some catalog) players errs h p hp
  subst hpe
  simp only [setPacks, List.mem_filter, hpack, true_and]
  exact packCompleted_iff (toPlayer round e) pack

/-- C2, amended, on the pack `P` of levels `a` and `b`, an empty pack and a pack without
`levels`: only `X`, who completed both levels, holds `P`. -/
theorem pack_completion_witness :
    fetchLeaderboardFrom asciiLower demoScore id (some packList) (some packCatalog)
        = .ok (some (packPlayers, [])) ∧
    ∀ p ∈ packPlayers, ∀ pack ∈ packCatalog,
      (pack ∈ p.packs ↔
        (pack.levels.getD [] ≠ [] ∧
          ∀ id ∈ pack.levels.getD [], id ≠ "" ∧ ∃ c ∈ p.completed, c.levelPath = id)) :=
  ⟨by decide,
   pack_completion asciiLower demoScore id packList packCatalog packPlayers [] (by decide)⟩

/-- C2 as stated fails at the empty identifier: `B` completed the only level of pack `P`, whose
identifier is the empty string, and `P` is not in the `packs` of `B`. -/
theorem pack_completion_counterexample :
    fetchLeaderboardFrom asciiLower demoScore id (some emptyPathList) (some emptyPathCatalog)
        = .ok (some (emptyPathPlayers, [])) ∧
    ∃ p ∈ emptyPathPlayers, ∃ pack ∈ emptyPathCatalog,
      ¬ (pack ∈ p.packs ↔
        (pack.levels.getD [] ≠ [] ∧
          ∀ id ∈ pack.levels.getD [], ∃ c ∈ p.completed, c.levelPath = id)) := by
  decide

/-! ## Ranking -/

theorem sorted_pair_sublist {α : Type} (key : α → Nat) :
    ∀ (l : List α), l.Pairwise (fun x y => key x ≤ key y) → ∀ a b, a ∈ l → b ∈ l →
      key a < key b → [a, b].Sublist l
  | [], _, _, _, ha, _, _ => by cases ha
  | x :: xs, hs, a, b, ha, hb, hlt => by
    rw [List.pairwise_cons] at hs
    have hbx : b ≠ x := by
      intro hbx
      subst hbx
      rcases List.mem_cons.1 ha with rfl | ha2
      · exact absurd hlt (lt_irrefl _)
      · exact absurd (lt_of_le_of_lt (hs.1 a ha2) hlt) (lt_irrefl _)
    have hb2 : b ∈ xs := (List.mem_cons.1 hb).resolve_left hbx
    by_cases hax : a = x
    · subst hax
      exact List.Sublist.cons₂ _ (List.singleton_sublist.2 hb2)
    · have ha2 : a ∈ xs := (List.mem_cons.1 ha).resolve_left hax
      exact List.Sublist.cons _ (sorted_pair_sublist key xs hs.2 a b ha2 hb2 hlt)

theorem isArrayIndex_of_some (s : String) (i : Nat) (h : arrayIndex? s = some i) :
    isArrayIndex s = true := by
  unfold isArrayIndex
  rw [h]
  rfl

theorem ownEntries_sorted {α : Type} (o : PlainObject α) :
    ((o.filter (fun e => isArrayIndex e.1)).insertionSort
      (fun a b => (arrayIndex? a.1).getD 0 ≤ (arrayIndex? b.1).getD 0)).Pairwise
      (fun a b => (arrayIndex? a.1).getD 0 ≤ (arrayIndex? b.1).getD 0) := by
  haveI : IsTotal (String × α) (fun a b => (arrayIndex? a.1).getD 0 ≤ (arrayIndex? b.1).getD 0) :=
    ⟨fun a b => le_total _ _⟩
  haveI : IsTrans (String × α) (fun a b => (arrayIndex? a.1).getD 0 ≤ (arrayIndex? b.1).getD 0) :=
    ⟨fun a b c hab hbc => le_trans hab hbc⟩
  exact List.sorted_insertionSort _ _

/-- Names that are not array indices keep their order of creation in `Object.entries`. -/
theorem ownEntries_pair_plain {α : Type} (o : PlainObject α) (a b : String × α)
    (ha : isArrayIndex a.1 = false) (hb : isArrayIndex b.1 = false) (h : [a, b].Sublist o) :
    [a, b].Sublist (ownEntries o) := by
  unfold ownEntries
  have hf := h.filter (fun e => !isArrayIndex e.1)
  simp only [List.filter_cons, ha, hb, Bool.not_false, if_true, List.filter_nil] at hf
  exact hf.trans (List.sublist_append_right _ _)

/-- An array-index name comes before every other name in `Object.entries`. -/
theorem ownEntries_pair_mixed {α : Type} (o : PlainObject α) (a b : String × α)
    (ha : isArrayIndex a.1 = true) (hb : isArrayIndex b.1 = false) (hao : a ∈ o) (hbo : b ∈ o) :
    [a, b].Sublist (ownEntries o) := by
  unfold ownEntries
  have h1 : [a].Sublist ((o.filter (fun e => isArrayIndex e.1)).insertionSort
      (fun a b => (arrayIndex? a.1).getD 0 ≤ (arrayIndex? b.1).getD 0)) := by
    rw [List.singleton_sublist, (List.perm_insertionSort _ _).mem_iff, List.mem_filter]
    exact ⟨hao, ha⟩
  have h2 : [b].Sublist (o.filter (fun e => !isArrayIndex e.1)) := by
    rw [List.singleton_sublist, List.mem_filter]
    exact ⟨hbo, by simp [hb]⟩
  exact h1.append h2

/-- Array-index names come in ascending numeric order in `Object.entries`. -/
theorem ownEntries_pair_index {α : Type} (o : PlainObject α) (a b : String × α) (i j : Nat)
    (ha : arrayIndex? a.1 = some i) (hb : arrayIndex? b.1 = some j) (hij : i < j)
    (hao : a ∈ o) (hbo : b ∈ o) : [a, b].Sublist (ownEntries o) := by
  unfold ownEntries
  refine List.Sublist.trans ?_ (List.sublist_append_left _ _)
  refine sorted_pair_sublist (fun e => (arrayIndex? e.1).getD 0) _ (ownEntries_sorted o) a b ?_ ?_ ?_
  · rw [(List.perm_insertionSort _ _).mem_iff, List.mem_filter]
    exact ⟨hao, isArrayIndex_of_some a.1 i ha⟩
  · rw [(List.perm_insertionSort _ _).mem_iff, List.mem_filter]
    exact ⟨hbo, isArrayIndex_of_some b.1 j hb⟩
  · simp only [ha, hb, Option.getD_some]
    exact hij

/-- The sort of `Array.prototype.sort` is stable: two elements that compare equal keep their order. -/
theorem arraySort_stable {α ν : Type} [LinearOrderedRing ν] (cmp : α → α → ν) (xs : List α)
    (a b : α) (hab : cmp a b ≤ 0) (h : [a, b].Sublist xs) : [a, b].Sublist (arraySort cmp xs) :=
  List.pair_sublist_insertionSort hab h

/-- Players of equal total are returned in the order of `Object.entries(scoreMap)`. -/
theorem players_pair {ν : Type} [LinearOrderedRing ν] (round : ν → ν)
    (m : PlainObject (Scores ν)) (packs : Option (List Pack)) (ea eb : String × Scores ν)
    (h : [ea, eb].Sublist (ownEntries m))
    (ht : (toPlayer round ea).total = (toPlayer round eb).total) :
    [setPacks packs (toPlayer round ea), setPacks packs (toPlayer round eb)].Sublist
      (arraySort (fun a b => b.total - a.total) ((buildPlayers round m).map (setPacks packs))) := by
  apply arraySort_stable
  · have h1 : (setPacks packs (toPlayer round ea)).total = (toPlayer round ea).total := by
      cases packs <;> rfl
    have h2 : (setPacks packs (toPlayer round eb)).total = (toPlayer round eb).total := by
      cases packs <;> rfl
    rw [h1, h2, ht, sub_self]
  · unfold buildPlayers
    rw [List.map_map]
    exact h.map (setPacks packs ∘ toPlayer round)

theorem setPacks_total {ν : Type} (packs : Option (List Pack)) (p : Player ν) :
    (setPacks packs p).total = p.total := by
  cases packs <;> rfl

theorem setPacks_user {ν : Type} (packs : Option (List Pack)) (p : Player ν) :
    (setPacks packs p).user = p.user := by
  cases packs <;> rfl

theorem pair_of_keys {α : Type} (m : PlainObject α) (hnd : (m.map (fun e => e.1)).Nodup)
    (ea eb : String × α) (ha : ea ∈ m) (hb : eb ∈ m)
    (h : [ea.1, eb.1].Sublist (m.map (fun e => e.1))) : [ea, eb].Sublist m := by
  obtain ⟨l, hl, hmap⟩ := List.sublist_map_iff.1 h
  rcases l with _ | ⟨e1, _ | ⟨e2, _ | ⟨e3, l3⟩⟩⟩
  · simp at hmap
  · simp at hmap
  · simp only [List.map_cons, List.map_nil, List.cons.injEq, and_true] at hmap
    have h1 : e1 ∈ m := hl.subset (List.mem_cons_self _ _)
    have h2 : e2 ∈ m := hl.subset (List.mem_cons_of_mem _ (List.mem_cons_self _ _))
    have he1 : ea = e1 := List.inj_on_of_nodup_map hnd ha h1 hmap.1
    have he2 : eb = e2 := List.inj_on_of_nodup_map hnd hb h2 hmap.2
    rw [he1, he2]
    exact hl
  · simp at hmap

/-- C3, amended. Two returned players with equal rounded `total` appear in the order of
`Object.entries(scoreMap)`: when neither name is an array index (a canonical decimal numeral
below `2^32 - 1`), the one registered earlier in the fold comes first; a player whose name is an
array index comes before one whose name is not; and of two array-index names the smaller number
comes first. -/
theorem tie_break_order {ν : Type} [LinearOrderedRing ν] (lower : String → String)
    (hlower : ∀ s, lower s = lower "" → s = "") (score : Nat → ν → ν → ν) (round : ν → ν)
    (list : List (LoadResult ν)) (packs : Option (List Pack)) (players : List (Player ν))
    (errs : List String)
    (h : fetchLeaderboardFrom lower score round (some list) packs = .ok (some (players, errs))) :
    ∃ m, foldList lower score list = .ok (m, errs) ∧
      ∀ a ∈ players, ∀ b ∈ players, a.total = b.total →
        (isArrayIndex a.user = false → isArrayIndex b.user = false →
          [a.user, b.user].Sublist (m.map (fun e => e.1)) → [a, b].Sublist players) ∧
        (isArrayIndex a.user = true → isArrayIndex b.user = false → [a, b].Sublist players) ∧
        (∀ i j, arrayIndex? a.user = some i → arrayIndex? b.user = some j → i < j →
          [a, b].Sublist players) := by
  obtain ⟨m, hf, hpl⟩ := fetchLeaderboardFrom_ok lower score round list packs players errs h
  obtain ⟨_, hc, _⟩ := foldList_ok lower score list m errs hf
  have inv := foldlM_applyCredit_inv lower hlower _ m hc
  refine ⟨m, hf, ?_⟩
  intro a ha b hb htot
  rw [hpl] at ha hb
  obtain ⟨ea, hea, rfl⟩ := List.mem_map.1 ((players_perm round m packs).mem_iff.1 ha)
  obtain ⟨eb, heb, rfl⟩ := List.mem_map.1 ((players_perm round m packs).mem_iff.1 hb)
  rw [setPacks_total, setPacks_total] at htot
  simp only [setPacks_user]
  rw [hpl]
  refine ⟨?_, ?_, ?_⟩
  · intro hia hib hsub
    exact players_pair round m packs ea eb
      (ownEntries_pair_plain m ea eb hia hib (pair_of_keys m inv.nodup ea eb hea heb hsub)) htot
  · intro hia hib
    exact players_pair round m packs ea eb (ownEntries_pair_mixed m ea eb hia hib hea heb) htot
  · intro i j hi hj hij
    exact players_pair round m packs ea eb
      (ownEntries_pair_index m ea eb i j hi hj hij hea heb) htot

/-- C3, amended, on the two levels of `packList`: `V` and `X` tie at 15000 and `V`, registered
first, comes first. -/
theorem tie_break_order_witness :
    fetchLeaderboardFrom asciiLower demoScore id (some packList) (some packCatalog)
        = .ok (some (packPlayers, [])) ∧
    ∃ m, foldList asciiLower demoScore packList = .ok (m, []) ∧
      ∀ a ∈ packPlayers, ∀ b ∈ packPlayers, a.total = b.total →
        (isArrayIndex a.user = false → isArrayIndex b.user = false →
          [a.user, b.user].Sublist (m.map (fun e => e.1)) → [a, b].Sublist packPlayers) ∧
        (isArrayIndex a.user = true → isArrayIndex b.user = false →
          [a, b].Sublist packPlayers) ∧
        (∀ i j, arrayIndex? a.user = some i → arrayIndex? b.user = some j → i < j →
          [a, b].Sublist packPlayers) :=
  ⟨by decide,
   tie_break_order asciiLower asciiLower_empty demoScore id packList (some packCatalog)
     packPlayers [] (by decide)⟩

/-- C3 as stated fails on names made of digits: on `tieList` the fold registers `b` before `1`,
both players have total 10000, and `1` is returned before `b`. -/
theorem tie_break_counterexample :
    foldList asciiLower demoScore tieList = .ok (tieScoreMap, []) ∧
    fetchLeaderboardFrom asciiLower demoScore id (some tieList) none
      = .ok (some (tiePlayers, [])) ∧
    ∃ a ∈ tiePlayers, ∃ b ∈ tiePlayers, a.total = b.total ∧
      [a.user, b.user].Sublist (tieScoreMap.map (fun e => e.1)) ∧ ¬ [a, b].Sublist tiePlayers := by
  decide

/-! ## Totals and order -/

theorem scoreSum_eq {ν : Type} [LinearOrderedRing ν] (verified : List (Verified ν))
    (completed : List (Completed ν)) (progressed : List (Progressed ν)) :
    scoreSum verified completed progressed
      = (verified.map (fun c => c.score)).sum + (completed.map (fun c => c.score)).sum
        + (progressed.map (fun c => c.score)).sum := by
  unfold scoreSum
  rw [← List.sum_eq_foldl, List.sum_append, List.sum_append]

/-- C8. The `total` of every returned player is `round` applied to the sum of the `score`
fields of the entries of its `verified`, `completed` and `progressed` lists. -/
theorem totals {ν : Type} [LinearOrderedRing ν] (lower : String → String)
    (score : Nat → ν → ν → ν) (round : ν → ν) (list : List (LoadResult ν))
    (packs : Option (List Pack)) (players : List (Player ν)) (errs : List String)
    (h : fetchLeaderboardFrom lower score round (some list) packs = .ok (some (players, errs))) :
    ∀ p ∈ players,
      p.total = round ((p.verified.map (fun c => c.score)).sum
        + (p.completed.map (fun c => c.score)).sum
        + (p.progressed.map (fun c => c.score)).sum) := by
  intro p hp
  obtain ⟨m, e, _, _, hpe⟩ := mem_players lower score round list packs players errs h p hp
  subst hpe
  rw [setPacks_total]
  cases packs <;> exact congrArg round (scoreSum_eq _ _ _)

/-- C8 on the two levels of `packList`. -/
theorem totals_witness :
    fetchLeaderboardFrom asciiLower demoScore id (some packList) (some packCatalog)
        = .ok (some (packPlayers, [])) ∧
    ∀ p ∈ packPlayers,
      p.total = id ((p.verified.map (fun c => c.score)).sum
        + (p.completed.map (fun c => c.score)).sum
        + (p.progressed.map (fun c => c.score)).sum) :=
  ⟨by decide,
   totals asciiLower demoScore id packList (some packCatalog) packPlayers [] (by decide)⟩

theorem arraySort_sorted {ν : Type} [LinearOrderedRing ν] (xs : List (Player ν)) :
    (arraySort (fun a b => b.total - a.total) xs).Pairwise (fun a b => b.total ≤ a.total) := by
  haveI : IsTotal (Player ν) (fun a b => b.total - a.total ≤ 0) :=
    ⟨fun a b => by
      simp only [sub_nonpos]
      exact le_total _ _⟩
  haveI : IsTrans (Player ν) (fun a b => b.total - a.total ≤ 0) :=
    ⟨fun a b c hab hbc => by
      simp only [sub_nonpos] at hab hbc ⊢
      exact le_trans hbc hab⟩
  have hs : (arraySort (fun a b => b.total - a.total) xs).Pairwise
      (fun a b => b.total - a.total ≤ 0) :=
    List.sorted_insertionSort (fun a b : Player ν => b.total - a.total ≤ 0) xs
  exact hs.imp (fun hab => by simpa only [sub_nonpos] using hab)

/-- C9. The returned player sequence is a permutation of the players built from `scoreMap`
(one player for each of its entries) and its totals are in non-increasing order. -/
theorem ranking_order {ν : Type} [LinearOrderedRing ν] (lower : String → String)
    (score : Nat → ν → ν → ν) (round : ν → ν) (list : List (LoadResult ν))
    (packs : Option (List Pack)) (players : List (Player ν)) (errs : List String)
    (h : fetchLeaderboardFrom lower score round (some list) packs = .ok (some (players, errs))) :
    ∃ m, foldList lower score list = .ok (m, errs) ∧
      players.Perm (assignPacks packs (buildPlayers round m)) ∧
      (players.map Player.entry).Perm m ∧
      players.Pairwise (fun a b => b.total ≤ a.total) := by
  obtain ⟨m, hf, hpl⟩ := fetchLeaderboardFrom_ok lower score round list packs players errs h
  refine ⟨m, hf, ?_, ?_, ?_⟩
  · rw [hpl, assignPacks_eq_map]
    exact arraySort_perm _ _
  · rw [hpl]
    exact players_entry_perm round m packs
  · rw [hpl]
    exact arraySort_sorted _

/-- C9 on the two levels of `packList`. -/
theorem ranking_order_witness :
    fetchLeaderboardFrom asciiLower demoScore id (some packList) (some packCatalog)
        = .ok (some (packPlayers, [])) ∧
    ∃ m, foldList asciiLower demoScore packList = .ok (m, []) ∧
      packPlayers.Perm (assignPacks (some packCatalog) (buildPlayers id m)) ∧
      (packPlayers.map Player.entry).Perm m ∧
      packPlayers.Pairwise (fun a b => b.total ≤ a.total) :=
  ⟨by decide,
   ranking_order asciiLower demoScore id packList (some packCatalog) packPlayers [] (by decide)⟩

/-! ## Every credit lands exactly once -/

theorem filterMap_map_none {α β γ : Type} (f : α → β) (g : β → Option γ)
    (h : ∀ x, g (f x) = none) : ∀ l : List α, (l.map f).filterMap g = []
  | [] => rfl
  | x :: l => by
    rw [List.map_cons, List.filterMap_cons_none (h x)]
    exact filterMap_map_none f g h l

theorem filterMap_map_some {α β : Type} (f : α → β) (g : β → Option α)
    (h : ∀ x, g (f x) = some x) : ∀ l : List α, (l.map f).filterMap g = l
  | [] => rfl
  | x :: l => by
    rw [List.map_cons, List.filterMap_cons_some (h x), filterMap_map_some f g h l]

theorem contributions_verified {ν : Type} (s : Scores ν) :
    s.contributions.filterMap Contribution.asVerified = s.verified := by
  unfold Scores.contributions
  rw [List.filterMap_append, List.filterMap_append,
    filterMap_map_some Contribution.verified Contribution.asVerified (fun _ => rfl),
    filterMap_map_none Contribution.completed Contribution.asVerified (fun _ => rfl),
    filterMap_map_none Contribution.progressed Contribution.asVerified (fun _ => rfl)]
  simp

theorem contributions_completed {ν : Type} (s : Scores ν) :
    s.contributions.filterMap Contribution.asCompleted = s.completed := by
  unfold Scores.contributions
  rw [List.filterMap_append, List.filterMap_append,
    filterMap_map_none Contribution.verified Contribution.asCompleted (fun _ => rfl),
    filterMap_map_some Contribution.completed Contribution.asCompleted (fun _ => rfl),
    filterMap_map_none Contribution.progressed Contribution.asCompleted (fun _ => rfl)]
  simp

theorem contributions_progressed {ν : Type} (s : Scores ν) :
    s.contributions.filterMap Contribution.asProgressed = s.progressed := by
  unfold Scores.contributions
  rw [List.filterMap_append, List.filterMap_append,
    filterMap_map_none Contribution.verified Contribution.asProgressed (fun _ => rfl),
    filterMap_map_none Contribution.completed Contribution.asProgressed (fun _ => rfl),
    filterMap_map_some Contribution.progressed Contribution.asProgressed (fun _ => rfl)]
  simp

theorem records_completed {ν : Type} [LinearOrderedRing ν] (score : Nat → ν → ν → ν)
    (rank : Nat) (level : Level ν) :
    ∀ records : List (Record ν),
      (records.map (recordCredit score rank level)).filterMap (fun e => e.2.asCompleted)
        = (records.filter (fun r => decide (r.percent = 100))).map
            (completedEntry score rank level)
  | [] => rfl
  | r :: rs => by
    have ih := records_completed score rank level rs
    by_cases h : r.percent = 100
    · have h1 : (recordCredit score rank level r).2.asCompleted
          = some (completedEntry score rank level r) := by
        simp [recordCredit, h, Contribution.asCompleted]
      simp only [List.map_cons, List.filterMap_cons, h1]
      rw [ih]
      simp [List.filter_cons, h]
    · have h1 : (recordCredit score rank level r).2.asCompleted = none := by
        simp [recordCredit, h, Contribution.asCompleted]
      simp only [List.map_cons, List.filterMap_cons, h1]
      rw [ih]
      simp [List.filter_cons, h]

theorem records_progressed {ν : Type} [LinearOrderedRing ν] (score : Nat → ν → ν → ν)
    (rank : Nat) (level : Level ν) :
    ∀ records : List (Record ν),
      (records.map (recordCredit score rank level)).filterMap (fun e => e.2.asProgressed)
        = (records.filter (fun r => !decide (r.percent = 100))).map
            (progressedEntry score rank level)
  | [] => rfl
  | r :: rs => by
    have ih := records_progressed score rank level rs
    by_cases h : r.percent = 100
    · have h1 : (recordCredit score rank level r).2.asProgressed = none := by
        simp [recordCredit, h, Contribution.asProgressed]
      simp only [List.map_cons, List.filterMap_cons, h1]
      rw [ih]
      simp [List.filter_cons, h]
    · have h1 : (recordCredit score rank level r).2.asProgressed
          = some (progressedEntry score rank level r) := by
        simp [recordCredit, h, Contribution.asProgressed]
      simp only [List.map_cons, List.filterMap_cons, h1]
      rw [ih]
      simp [List.filter_cons, h]

theorem records_verified {ν : Type} [LinearOrderedRing ν] (score : Nat → ν → ν → ν)
    (rank : Nat) (level : Level ν) :
    ∀ records : List (Record ν),
      (records.map (recordCredit score rank level)).filterMap (fun e => e.2.asVerified) = []
  | [] => rfl
  | r :: rs => by
    have h1 : (recordCredit score rank level r).2.asVerified = none := by
      unfold recordCredit
      by_cases h : r.percent = 100 <;> simp [h, Contribution.asVerified]
    simp only [List.map_cons, List.filterMap_cons, h1]
    exact records_verified score rank level rs

theorem listCredits_completed {ν : Type} [LinearOrderedRing ν] (score : Nat → ν → ν → ν)
    (list : List (LoadResult ν)) :
    (listCredits score list).filterMap (fun e => e.2.asCompleted) = completedOf score list := by
  unfold listCredits completedOf
  rw [List.filterMap_flatMap]
  congr 1
  funext il
  unfold levelCredits
  simp only [List.filterMap_cons, Contribution.asCompleted]
  exact records_completed score il.1 il.2 il.2.records

theorem listCredits_progressed {ν : Type} [LinearOrderedRing ν] (score : Nat → ν → ν → ν)
    (list : List (LoadResult ν)) :
    (listCredits score list).filterMap (fun e => e.2.asProgressed) = progressedOf score list := by
  unfold listCredits progressedOf
  rw [List.filterMap_flatMap]
  congr 1
  funext il
  unfold levelCredits
  simp only [List.filterMap_cons, Contribution.asProgressed]
  exact records_progressed score il.1 il.2 il.2.records

theorem listCredits_verified {ν : Type} [LinearOrderedRing ν] (score : Nat → ν → ν → ν)
    (list : List (LoadResult ν)) :
    (listCredits score list).filterMap (fun e => e.2.asVerified)
      = (loadedLevels list).map (fun il => verifiedEntry score il.1 il.2) := by
  unfold listCredits
  rw [List.filterMap_flatMap]
  induction loadedLevels list with
  | nil => rfl
  | cons il l ih =>
    rw [List.flatMap_cons, List.map_cons, ih]
    have hl : (levelCredits score il).filterMap (fun e => e.2.asVerified)
        = [verifiedEntry score il.1 il.2] := by
      unfold levelCredits
      rw [List.filterMap_cons]
      show verifiedEntry score il.1 il.2 :: List.filterMap (fun e => e.2.asVerified)
        (List.map (recordCredit score il.1 il.2) il.2.records) = _
      rw [records_verified]
    rw [hl]
    rfl

/-- The entries of one kind over all players are, up to order, the credits of that kind. -/
theorem all_contributions {ν γ : Type} (lower : String → String)
    (evs : List (String × Contribution ν)) (m : PlainObject (Scores ν))
    (players : List (Player ν)) (inv : FoldInv lower evs m)
    (hperm : (players.map Player.entry).Perm m) (sel : Contribution ν → Option γ)
    (field : Scores ν → List γ) (hsel : ∀ s, s.contributions.filterMap sel = field s) :
    (players.flatMap (fun p => field p.entry.2)).Perm (evs.filterMap (fun e => sel e.2)) := by
  have h1 : (players.flatMap (fun p => field p.entry.2)).Perm (m.flatMap (fun e => field e.2)) := by
    have := hperm.flatMap_right (fun e => field e.2)
    rw [List.flatMap_map] at this
    exact this
  have h2 : m.flatMap (fun e => field e.2)
      = (m.flatMap (fun e => e.2.contributions)).filterMap sel := by
    rw [List.filterMap_flatMap]
    congr 1
    funext e
    exact (hsel e.2).symm
  have h3 : ((m.flatMap (fun e => e.2.contributions)).filterMap sel).Perm
      ((evs.map (fun e => e.2)).filterMap sel) := inv.contribs.filterMap sel
  rw [List.filterMap_map] at h3
  rw [h2] at h1
  exact h1.trans h3

/-! ## Completed and progressed -/

theorem length_filter_add {α : Type} (q : α → Bool) (l : List α) :
    (l.filter q).length + (l.filter (fun x => !q x)).length = l.length := by
  rw [← List.length_append]
  exact (List.filter_append_perm q l).length_eq

theorem length_completedOf_add {ν : Type} [LinearOrderedRing ν] (score : Nat → ν → ν → ν)
    (list : List (LoadResult ν)) :
    (completedOf score list).length + (progressedOf score list).length
      = ((loadedLevels list).map (fun il => il.2.records.length)).sum := by
  unfold completedOf progressedOf
  induction loadedLevels list with
  | nil => rfl
  | cons il l ih =>
    simp only [List.flatMap_cons, List.length_append, List.length_map, List.map_cons,
      List.sum_cons]
    have := length_filter_add (fun r : Record ν => decide (r.percent = 100)) il.2.records
    omega

/-- C7. Over all returned players, the `completed` entries are exactly (as a multiset) the
completions of the records at 100 percent of the loaded levels, and the `progressed` entries
exactly the progresses of their other records; the entry of a record is in the list of the player
resolved from its user; and the numbers of `completed` and `progressed` entries add up to the
number of records of the loaded levels. -/
theorem completed_progressed_partition {ν : Type} [LinearOrderedRing ν] (lower : String → String)
    (hlower : ∀ s, lower s = lower "" → s = "") (score : Nat → ν → ν → ν) (round : ν → ν)
    (list : List (LoadResult ν)) (packs : Option (List Pack)) (players : List (Player ν))
    (errs : List String)
    (h : fetchLeaderboardFrom lower score round (some list) packs = .ok (some (players, errs))) :
    (players.flatMap (fun p => p.completed)).Perm (completedOf score list) ∧
    (players.flatMap (fun p => p.progressed)).Perm (progressedOf score list) ∧
    (∀ il ∈ loadedLevels list, ∀ record ∈ il.2.records,
      ∃ p ∈ players, p.user = firstSeen lower (foldNames list) record.user ∧
        (record.percent = 100 → completedEntry score il.1 il.2 record ∈ p.completed) ∧
        (record.percent ≠ 100 → progressedEntry score il.1 il.2 record ∈ p.progressed)) ∧
    (players.map (fun p => p.completed.length + p.progressed.length)).sum
      = ((loadedLevels list).map (fun il => il.2.records.length)).sum := by
  obtain ⟨m, _, inv, _, hentry, _⟩ :=
    returned_inv lower hlower score round list packs players errs h
  have hc : (players.flatMap (fun p => p.completed)).Perm (completedOf score list) := by
    have := all_contributions lower _ m players inv hentry Contribution.asCompleted
      (fun s => s.completed) contributions_completed
    rw [listCredits_completed] at this
    exact this
  have hp : (players.flatMap (fun p => p.progressed)).Perm (progressedOf score list) := by
    have := all_contributions lower _ m players inv hentry Contribution.asProgressed
      (fun s => s.progressed) contributions_progressed
    rw [listCredits_progressed] at this
    exact this
  refine ⟨hc, hp, ?_, ?_⟩
  · intro il hil record hr
    obtain ⟨p, hpm, hu, hcon⟩ := credited_to_firstSeen lower _ m players inv hentry _
      (record_mem_listCredits score list il hil record hr)
    rw [listCredits_names] at hu
    refine ⟨p, hpm, hu, ?_, ?_⟩
    · intro h100
      simp only [recordCredit, h100, if_true] at hcon
      exact (completed_mem_contributions p _).1 hcon
    · intro h100
      simp only [recordCredit, h100, if_false] at hcon
      exact (progressed_mem_contributions p _).1 hcon
  · rw [List.sum_map_add, ← length_completedOf_add score list, ← hc.length_eq, ← hp.length_eq,
      List.length_flatMap, List.length_flatMap]
    rfl

/-- C7 on the two levels of `packList`: three completions and one progress for four records. -/
theorem completed_progressed_partition_witness :
    fetchLeaderboardFrom asciiLower demoScore id (some packList) (some packCatalog)
        = .ok (some (packPlayers, [])) ∧
    ((packPlayers.flatMap (fun p => p.completed)).Perm (completedOf demoScore packList) ∧
    (packPlayers.flatMap (fun p => p.progressed)).Perm (progressedOf demoScore packList) ∧
    (∀ il ∈ loadedLevels packList, ∀ record ∈ il.2.records,
      ∃ p ∈ packPlayers, p.user = firstSeen asciiLower (foldNames packList) record.user ∧
        (record.percent = 100 → completedEntry demoScore il.1 il.2 record ∈ p.completed) ∧
        (record.percent ≠ 100 → progressedEntry demoScore il.1 il.2 record ∈ p.progressed)) ∧
    (packPlayers.map (fun p => p.completed.length + p.progressed.length)).sum
      = ((loadedLevels packList).map (fun il => il.2.records.length)).sum) :=
  ⟨by decide,
   completed_progressed_partition asciiLower asciiLower_empty demoScore id packList
     (some packCatalog) packPlayers [] (by decide)⟩

/-! ## Verification -/

theorem loadedSlot_index {ν : Type} (slot : Nat × LoadResult ν) (il : Nat × Level ν)
    (h : loadedSlot slot = some il) : il.1 = slot.1 := by
  unfold loadedSlot at h
  by_cases ht : truthy slot.2.2 = true
  · simp [ht] at h
  · simp only [ht, if_false, Bool.false_eq_true] at h
    cases hl : slot.2.1 with
    | none => rw [hl] at h; cases h
    | some level =>
      rw [hl] at h
      simp only [Option.map_some', Option.some.injEq] at h
      rw [← h]

theorem loadedLevels_index_ge {ν : Type} (l : List (LoadResult ν)) (j : Nat)
    (il : Nat × Level ν) (h : il ∈ (l.enumFrom j).filterMap loadedSlot) : j ≤ il.1 := by
  obtain ⟨slot, hs, hl⟩ := List.mem_filterMap.1 h
  rw [loadedSlot_index slot il hl]
  obtain ⟨i, x⟩ := slot
  exact (List.mem_enumFrom hs).1

/-- The loaded levels hold exactly one level with the position of a loaded slot. -/
theorem loadedLevels_at {ν : Type} :
    ∀ (l : List (LoadResult ν)) (j i : Nat) (level : Level ν) (err : Option String),
      l[i]? = some (some level, err) → truthy err = false →
      ((l.enumFrom j).filterMap loadedSlot).filter (fun il => il.1 == i + j) = [(i + j, level)]
  | [], _, _, _, _, h, _ => by simp at h
  | slot :: l, j, 0, level, err, h, ht => by
    simp only [List.getElem?_cons_zero, Option.some.injEq] at h
    subst h
    have hload : loadedSlot (j, ((some level, err) : LoadResult ν)) = some (j, level) := by
      simp [loadedSlot, ht]
    rw [List.enumFrom_cons, List.filterMap_cons_some hload, List.filter_cons]
    simp only [Nat.zero_add, beq_self_eq_true, if_true, List.cons.injEq, true_and]
    rw [List.filter_eq_nil_iff]
    intro il hil
    have := loadedLevels_index_ge l (j + 1) il hil
    simp only [beq_iff_eq]
    omega
  | slot :: l, j, i + 1, level, err, h, ht => by
    simp only [List.getElem?_cons_succ] at h
    have ih := loadedLevels_at l (j + 1) i level err h ht
    have harith : i + 1 + j = i + (j + 1) := by omega
    rw [harith, List.enumFrom_cons]
    cases hload : loadedSlot (j, slot) with
    | none =>
      rw [List.filterMap_cons_none hload]
      exact ih
    | some il =>
      rw [List.filterMap_cons_some hload, List.filter_cons]
      have hj : il.1 = j := loadedSlot_index (j, slot) il hload
      have hne : (il.1 == i + (j + 1)) = false := by
        rw [hj]
        simp only [beq_eq_false_iff_ne, ne_eq]
        omega
      simp only [hne, Bool.false_eq_true, if_false]
      exact ih

theorem mem_loadedLevels_at {ν : Type} (list : List (LoadResult ν)) (i : Nat) (level : Level ν)
    (err : Option String) (h : list[i]? = some (some level, err)) (ht : truthy err = false) :
    (i, level) ∈ loadedLevels list := by
  have := loadedLevels_at list 0 i level err h ht
  have hmem : (i, level) ∈ ((list.enumFrom 0).filterMap loadedSlot).filter
      (fun il => il.1 == i + 0) := by
    rw [this]
    exact List.mem_singleton.2 rfl
  exact (List.mem_filter.1 hmem).1

/-- C10. The `verified` entries over all returned players are exactly (as a multiset) one entry
per loaded level; for the loaded level at 0-based position `i`, the `verified` entries of rank
`i + 1` over all players are one single entry, with score `score(i + 1, 100, percentToQualify)`,
the name of the level as `level` and its `verification` as `link`, and it is in the list of the
player resolved from the `verifier` of the level. -/
theorem verification_credit {ν : Type} [LinearOrderedRing ν] (lower : String → String)
    (hlower : ∀ s, lower s = lower "" → s = "") (score : Nat → ν → ν → ν) (round : ν → ν)
    (list : List (LoadResult ν)) (packs : Option (List Pack)) (players : List (Player ν))
    (errs : List String)
    (h : fetchLeaderboardFrom lower score round (some list) packs = .ok (some (players, errs))) :
    (players.flatMap (fun p => p.verified)).Perm
      ((loadedLevels list).map (fun il => verifiedEntry score il.1 il.2)) ∧
    ∀ (i : Nat) (level : Level ν) (err : Option String),
      list[i]? = some (some level, err) → truthy err = false →
      (players.flatMap (fun p => p.verified)).filter (fun v => v.rank == i + 1)
        = [{ rank := i + 1, level := level.name,
             score := score (i + 1) 100 level.percentToQualify, link := level.verification }] ∧
      ∃ p ∈ players, p.user = firstSeen lower (foldNames list) level.verifier ∧
        ({ rank := i + 1, level := level.name,
           score := score (i + 1) 100 level.percentToQualify, link := level.verification }
          : Verified ν) ∈ p.verified := by
  obtain ⟨m, _, inv, _, hentry, _⟩ :=
    returned_inv lower hlower score round list packs players errs h
  have hv : (players.flatMap (fun p => p.verified)).Perm
      ((loadedLevels list).map (fun il => verifiedEntry score il.1 il.2)) := by
    have := all_contributions lower _ m players inv hentry Contribution.asVerified
      (fun s => s.verified) contributions_verified
    rw [listCredits_verified] at this
    exact this
  refine ⟨hv, ?_⟩
  intro i level err hi ht
  refine ⟨?_, ?_⟩
  · have hf := hv.filter (fun v => v.rank == i + 1)
    rw [List.filter_map] at hf
    have hfun : ((fun v : Verified ν => v.rank == i + 1) ∘
        fun il : Nat × Level ν => verifiedEntry score il.1 il.2)
        = (fun il : Nat × Level ν => il.1 == i + 0) := by
      funext il
      simp [verifiedEntry]
    have hat := loadedLevels_at list 0 i level err hi ht
    rw [hfun] at hf
    unfold loadedLevels List.enum at hf
    rw [hat] at hf
    exact List.perm_singleton.1 hf
  · obtain ⟨p, hp, hu, hc⟩ := credited_to_firstSeen lower _ m players inv hentry _
      (verifier_mem_listCredits score list (i, level) (mem_loadedLevels_at list i level err hi ht))
    rw [listCredits_names] at hu
    exact ⟨p, hp, hu, (verified_mem_contributions p _).1 hc⟩

/-- C10 on the two levels of `packList`, both verified by `V`. -/
theorem verification_credit_witness :
    fetchLeaderboardFrom asciiLower demoScore id (some packList) (some packCatalog)
        = .ok (some (packPlayers, [])) ∧
    ((packPlayers.flatMap (fun p => p.verified)).Perm
      ((loadedLevels packList).map (fun il => verifiedEntry demoScore il.1 il.2)) ∧
    ∀ (i : Nat) (level : Level ℤ) (err : Option String),
      packList[i]? = some (some level, err) → truthy err = false →
      (packPlayers.flatMap (fun p => p.verified)).filter (fun v => v.rank == i + 1)
        = [{ rank := i + 1, level := level.name,
             score := demoScore (i + 1) 100 level.percentToQualify,
             link := level.verification }] ∧
      ∃ p ∈ packPlayers, p.user = firstSeen asciiLower (foldNames packList) level.verifier ∧
        ({ rank := i + 1, level := level.name,
           score := demoScore (i + 1) 100 level.percentToQualify, link := level.verification }
          : Verified ℤ) ∈ p.verified) :=
  ⟨by decide,
   verification_credit asciiLower asciiLower_empty demoScore id packList (some packCatalog)
     packPlayers [] (by decide)⟩

/-! ## Failures of the data source -/

theorem mapM_loadLevel {ν : Type} [LinearOrderedRing ν] (ds : DataSource ν)
    (levelToPacks : PlainObject (List PackSummary)) :
    ∀ list : List String, (∀ path ∈ list, ds.level path ≠ .rejected) →
      list.mapM (loadLevel ds levelToPacks) = .ok (list.map (slotOf ds levelToPacks))
  | [], _ => rfl
  | path :: list, h => by
    have ih := mapM_loadLevel ds levelToPacks list (fun q hq => h q (List.mem_cons_of_mem _ hq))
    have hp := h path (List.mem_cons_self _ _)
    have h1 : loadLevel ds levelToPacks path = .ok (slotOf ds levelToPacks path) := by
      unfold loadLevel slotOf
      cases hd : ds.level path with
      | rejected => exact absurd hd hp
      | unparsable => rfl
      | parsed level => rfl
    rw [List.mapM_cons, h1, ih]
    rfl

/-- When no `fetch` rejects, every slot of `fetchList` is made from the document of its own
level alone: a failure slot when it does not parse, the loaded level otherwise. -/
theorem fetchList_slots {ν : Type} [LinearOrderedRing ν] (ds : DataSource ν)
    (levelToPacks : PlainObject (List PackSummary)) (list : List String)
    (hidx : indexPacks (fetchPacks ds) = .ok levelToPacks) (hlist : ds.list = .parsed list)
    (h : ∀ path ∈ list, ds.level path ≠ .rejected) :
    fetchList ds = .ok (some (list.map (slotOf ds levelToPacks))) := by
  unfold fetchList
  rw [hidx]
  simp only [hlist]
  rw [mapM_loadLevel ds levelToPacks list h]

/-- C4 fails when the `fetch` of a level rejects: with the list `a`, `b` and a rejected `fetch`
of `a.json`, `fetchList` returns `null`; had `a.json` not parsed, or had it loaded, the slot of
`b` would be the loaded level `b`. -/
theorem fetchList_rejected_level :
    fetchList rejectedLevelSource = .ok none ∧
    fetchList unparsableLevelSource = .ok (some [(none, some "a"), slotB]) ∧
    (fetchList loadedLevelSource).toOption.map (fun r => r.map (fun slots => slots.drop 1))
      = some (some [slotB]) := by
  decide

/-- C5 fails when the `fetch` of `_list.json` rejects: `fetchList` and `fetchLeaderboard` throw;
when `_list.json` does not parse, both return `null`. -/
theorem fetchList_rejected_list :
    fetchList rejectedListSource = .error .networkError ∧
    fetchLeaderboard asciiLower demoScore id rejectedListSource = .error .networkError ∧
    fetchList unparsableListSource = .ok none ∧
    fetchLeaderboard asciiLower demoScore id unparsableListSource = .ok none := by
  decide

/-- C6 fails on the empty identifier: the failure slot of a level whose identifier is the empty
string has a falsy `err`, so `fetchLeaderboard` reads `level.verifier` on `null` and throws. It
also throws when a name is inherited from `Object.prototype`. -/
theorem fetchLeaderboard_empty_identifier :
    fetchList emptyIdSource = .ok (some [(none, some "")]) ∧
    fetchLeaderboard asciiLower demoScore id emptyIdSource = .error .typeError ∧
    fetchLeaderboardFrom asciiLower demoScore id (some [((none : Option (Level ℤ)), some "")]) none
      = .error .typeError ∧
    fetchLeaderboardFrom asciiLower demoScore id (some [demoLevel "a" "constructor" []]) none
      = .error .typeError := by
  decide

/-! ## When `fetchLeaderboard` returns -/

theorem resolveUser_mem_or_eq {ν : Type} (lower : String → String) (m : PlainObject (Scores ν))
    (n : String) :
    resolveUser lower m n ∈ m.map (fun e => e.1) ∨ resolveUser lower m n = n := by
  unfold resolveUser
  cases hf : (ownKeys m).find? (fun u => lower u == lower n) with
  | none => exact Or.inr rfl
  | some u =>
    have hmem : u ∈ m.map (fun e => e.1) := (mem_ownKeys m u).1 (List.mem_of_find?_eq_some hf)
    by_cases h0 : u = ""
    · right
      simp [h0]
    · left
      simpa [h0] using hmem

theorem foldlM_applyCredit_isOk {ν : Type} (lower : String → String) :
    ∀ (evs : List (String × Contribution ν)) (m : PlainObject (Scores ν)),
      (∀ e ∈ evs, e.1 ∉ objectPrototypeKeys) →
      ∃ m2, evs.foldlM (applyCredit lower) m = .ok m2
  | [], m, _ => ⟨m, rfl⟩
  | e :: evs, m, h => by
    have he : resolveUser lower m e.1 ∈ m.map (fun x => x.1)
        ∨ resolveUser lower m e.1 ∉ objectPrototypeKeys := by
      rcases resolveUser_mem_or_eq lower m e.1 with hin | heq
      · exact Or.inl hin
      · right
        rw [heq]
        exact h e (List.mem_cons_self _ _)
    obtain ⟨m1, h1⟩ := credit_isOk m (resolveUser lower m e.1) e.2.push he
    obtain ⟨m2, h2⟩ := foldlM_applyCredit_isOk lower evs m1
      (fun x hx => h x (List.mem_cons_of_mem _ hx))
    refine ⟨m2, ?_⟩
    rw [List.foldlM_cons]
    unfold applyCredit
    rw [h1]
    exact h2

/-- The function `fetchLeaderboardFrom` returns a pair, with the failed identifiers as second
component, on every list in which each slot has a truthy `err` or a level and no verifier or user
is named like a member of `Object.prototype`. -/
theorem fetchLeaderboardFrom_returns {ν : Type} [LinearOrderedRing ν] (lower : String → String)
    (score : Nat → ν → ν → ν) (round : ν → ν) (list : List (LoadResult ν))
    (packs : Option (List Pack)) (hs : Shaped list)
    (hn : ∀ n ∈ foldNames list, n ∉ objectPrototypeKeys) :
    ∃ players, fetchLeaderboardFrom lower score round (some list) packs
      = .ok (some (players, failedIds list)) := by
  have hnames : ∀ e ∈ listCredits score list, e.1 ∉ objectPrototypeKeys := by
    intro e he
    apply hn
    rw [← listCredits_names score list]
    exact List.mem_map.2 ⟨e, he, rfl⟩
  obtain ⟨m, hm⟩ := foldlM_applyCredit_isOk lower (listCredits score list) [] hnames
  have hf : foldList lower score list = .ok (m, failedIds list) := by
    rw [foldList_eq lower score list hs, hm]
  refine ⟨arraySort (fun a b => b.total - a.total)
    (assignPacks packs (buildPlayers round m)), ?_⟩
  simp only [fetchLeaderboardFrom, hf]

/-- Whenever `fetchLeaderboardFrom` returns a pair, its second component holds the identifiers of
the slots with a truthy `err`, in list order, and the rank of every contribution of every player
is the position of a loaded level. -/
theorem failed_levels_skipped {ν : Type} [LinearOrderedRing ν] (lower : String → String)
    (hlower : ∀ s, lower s = lower "" → s = "") (score : Nat → ν → ν → ν) (round : ν → ν)
    (list : List (LoadResult ν)) (packs : Option (List Pack)) (players : List (Player ν))
    (errs : List String)
    (h : fetchLeaderboardFrom lower score round (some list) packs = .ok (some (players, errs))) :
    errs = failedIds list ∧
    ∀ p ∈ players,
      (∀ v ∈ p.verified, ∃ il ∈ loadedLevels list, v.rank = il.1 + 1) ∧
      (∀ c ∈ p.completed, ∃ il ∈ loadedLevels list, c.rank = il.1 + 1) ∧
      (∀ c ∈ p.progressed, ∃ il ∈ loadedLevels list, c.rank = il.1 + 1) := by
  obtain ⟨m, _, inv, _, hentry, herrs⟩ :=
    returned_inv lower hlower score round list packs players errs h
  have hv := all_contributions lower _ m players inv hentry Contribution.asVerified
    (fun s => s.verified) contributions_verified
  have hc := all_contributions lower _ m players inv hentry Contribution.asCompleted
    (fun s => s.completed) contributions_completed
  have hp := all_contributions lower _ m players inv hentry Contribution.asProgressed
    (fun s => s.progressed) contributions_progressed
  rw [listCredits_verified] at hv
  rw [listCredits_completed] at hc
  rw [listCredits_progressed] at hp
  refine ⟨herrs, ?_⟩
  intro p hpm
  refine ⟨?_, ?_, ?_⟩
  · intro v hvm
    have hmem := hv.mem_iff.1 (List.mem_flatMap.2 ⟨p, hpm, hvm⟩)
    obtain ⟨il, hil, rfl⟩ := List.mem_map.1 hmem
    exact ⟨il, hil, rfl⟩
  · intro c hcm
    have hmem := hc.mem_iff.1 (List.mem_flatMap.2 ⟨p, hpm, hcm⟩)
    unfold completedOf at hmem
    obtain ⟨il, hil, hin⟩ := List.mem_flatMap.1 hmem
    obtain ⟨r, _, rfl⟩ := List.mem_map.1 hin
    exact ⟨il, hil, rfl⟩
  · intro c hcm
    have hmem := hp.mem_iff.1 (List.mem_flatMap.2 ⟨p, hpm, hcm⟩)
    unfold progressedOf at hmem
    obtain ⟨il, hil, hin⟩ := List.mem_flatMap.1 hmem
    obtain ⟨r, _, rfl⟩ := List.mem_map.1 hin
    exact ⟨il, hil, rfl⟩

/-! ## Shared facts on the returned lists -/

/-- A loaded level sits in the list at its position, in a slot whose `err` is falsy. -/
theorem loadedLevels_mem {ν : Type} (list : List (LoadResult ν)) (il : Nat × Level ν)
    (h : il ∈ loadedLevels list) :
    ∃ err, list[il.1]? = some (some il.2, err) ∧ truthy err = false := by
  obtain ⟨slot, hs, hl⟩ := List.mem_filterMap.1 h
  obtain ⟨i, x⟩ := slot
  have hx : list[i]? = some x := List.mk_mem_enum_iff_getElem?.1 hs
  have hi : il.1 = i := loadedSlot_index (i, x) il hl
  unfold loadedSlot at hl
  cases ht : truthy x.2 with
  | true => simp [ht] at hl
  | false =>
    simp only [ht, Bool.false_eq_true, if_false] at hl
    cases hlv : x.1 with
    | none => rw [hlv] at hl; cases hl
    | some level =>
      rw [hlv] at hl
      simp only [Option.map_some', Option.some.injEq] at hl
      refine ⟨x.2, ?_, ht⟩
      rw [hi, hx, ← hl]
      simp only [Option.some.injEq]
      exact Prod.ext hlv rfl

/-- The three kinds of entries over all returned players, up to order. -/
theorem returned_lists {ν : Type} [LinearOrderedRing ν] (lower : String → String)
    (hlower : ∀ s, lower s = lower "" → s = "") (score : Nat → ν → ν → ν) (round : ν → ν)
    (list : List (LoadResult ν)) (packs : Option (List Pack)) (players : List (Player ν))
    (errs : List String)
    (h : fetchLeaderboardFrom lower score round (some list) packs = .ok (some (players, errs))) :
    (players.flatMap (fun p => p.verified)).Perm
      ((loadedLevels list).map (fun il => verifiedEntry score il.1 il.2)) ∧
    (players.flatMap (fun p => p.completed)).Perm (completedOf score list) ∧
    (players.flatMap (fun p => p.progressed)).Perm (progressedOf score list) := by
  obtain ⟨m, _, inv, _, hentry, _⟩ :=
    returned_inv lower hlower score round list packs players errs h
  have hv := all_contributions lower _ m players inv hentry Contribution.asVerified
    (fun s => s.verified) contributions_verified
  have hc := all_contributions lower _ m players inv hentry Contribution.asCompleted
    (fun s => s.completed) contributions_completed
  have hp := all_contributions lower _ m players inv hentry Contribution.asProgressed
    (fun s => s.progressed) contributions_progressed
  rw [listCredits_verified] at hv
  rw [listCredits_completed] at hc
  rw [listCredits_progressed] at hp
  exact ⟨hv, hc, hp⟩

/-- The verification of a loaded level is held by the player resolved from its verifier. -/
theorem verifier_held {ν : Type} [LinearOrderedRing ν] (lower : String → String)
    (hlower : ∀ s, lower s = lower "" → s = "") (score : Nat → ν → ν → ν) (round : ν → ν)
    (list : List (LoadResult ν)) (packs : Option (List Pack)) (players : List (Player ν))
    (errs : List String)
    (h : fetchLeaderboardFrom lower score round (some list) packs = .ok (some (players, errs)))
    (il : Nat × Level ν) (hil : il ∈ loadedLevels list) :
    ∃ p ∈ players, p.user = firstSeen lower (foldNames list) il.2.verifier ∧
      verifiedEntry score il.1 il.2 ∈ p.verified := by
  obtain ⟨m, _, inv, _, hentry, _⟩ :=
    returned_inv lower hlower score round list packs players errs h
  obtain ⟨p, hp, hu, hc⟩ := credited_to_firstSeen lower _ m players inv hentry _
    (verifier_mem_listCredits score list il hil)
  rw [listCredits_names] at hu
  exact ⟨p, hp, hu, (verified_mem_contributions p _).1 hc⟩

/-- The entry of a record of a loaded level is held by the player resolved from its user, as a
completion at 100 percent and as a progress otherwise. -/
theorem record_held {ν : Type} [LinearOrderedRing ν] (lower : String → String)
    (hlower : ∀ s, lower s = lower "" → s = "") (score : Nat → ν → ν → ν) (round : ν → ν)
    (list : List (LoadResult ν)) (packs : Option (List Pack)) (players : List (Player ν))
    (errs : List String)
    (h : fetchLeaderboardFrom lower score round (some list) packs = .ok (some (players, errs)))
    (il : Nat × Level ν) (hil : il ∈ loadedLevels list) (record : Record ν)
    (hr : record ∈ il.2.records) :
    ∃ p ∈ players, p.user = firstSeen lower (foldNames list) record.user ∧
      (record.percent = 100 → completedEntry score il.1 il.2 record ∈ p.completed) ∧
      (record.percent ≠ 100 → progressedEntry score il.1 il.2 record ∈ p.progressed) := by
  obtain ⟨m, _, inv, _, hentry, _⟩ :=
    returned_inv lower hlower score round list packs players errs h
  obtain ⟨p, hpm, hu, hcon⟩ := credited_to_firstSeen lower _ m players inv hentry _
    (record_mem_listCredits score list il hil record hr)
  rw [listCredits_names] at hu
  refine ⟨p, hpm, hu, ?_, ?_⟩
  · intro h100
    simp only [recordCredit, h100, if_true] at hcon
    exact (completed_mem_contributions p _).1 hcon
  · intro h100
    simp only [recordCredit, h100, if_false] at hcon
    exact (progressed_mem_contributions p _).1 hcon

theorem mem_completedOf {ν : Type} [LinearOrderedRing ν] (score : Nat → ν → ν → ν)
    (list : List (LoadResult ν)) (c : Completed ν) (h : c ∈ completedOf score list) :
    ∃ il ∈ loadedLevels list, ∃ record ∈ il.2.records,
      record.percent = 100 ∧ c = completedEntry score il.1 il.2 record := by
  unfold completedOf at h
  obtain ⟨il, hil, hin⟩ := List.mem_flatMap.1 h
  obtain ⟨r, hr, rfl⟩ := List.mem_map.1 hin
  rw [List.mem_filter] at hr
  exact ⟨il, hil, r, hr.1, by simpa using hr.2, rfl⟩

theorem mem_progressedOf {ν : Type} [LinearOrderedRing ν] (score : Nat → ν → ν → ν)
    (list : List (LoadResult ν)) (c : Progressed ν) (h : c ∈ progressedOf score list) :
    ∃ il ∈ loadedLevels list, ∃ record ∈ il.2.records,
      record.percent ≠ 100 ∧ c = progressedEntry score il.1 il.2 record := by
  unfold progressedOf at h
  obtain ⟨il, hil, hin⟩ := List.mem_flatMap.1 h
  obtain ⟨r, hr, rfl⟩ := List.mem_map.1 hin
  rw [List.mem_filter] at hr
  exact ⟨il, hil, r, hr.1, by simpa using hr.2, rfl⟩

/-! ## Records below the qualifying percent -/

/-- C11, amended. A record of a loaded level whose percent is below `percentToQualify` is
neither rejected nor clamped: the player resolved from its user holds its entry, a progress with
score `score(rank, percent, percentToQualify)` as the score function returns it (a completion with
score `score(rank, 100, percentToQualify)` when the percent is 100). -/
theorem below_threshold_as_is {ν : Type} [LinearOrderedRing ν] (lower : String → String)
    (hlower : ∀ s, lower s = lower "" → s = "") (score : Nat → ν → ν → ν) (round : ν → ν)
    (list : List (LoadResult ν)) (packs : Option (List Pack)) (players : List (Player ν))
    (errs : List String)
    (h : fetchLeaderboardFrom lower score round (some list) packs = .ok (some (players, errs))) :
    ∀ il ∈ loadedLevels list, ∀ record ∈ il.2.records,
      record.percent < il.2.percentToQualify →
      ∃ p ∈ players, p.user = firstSeen lower (foldNames list) record.user ∧
        (record.percent ≠ 100 →
          ({ rank := il.1 + 1, level := il.2.name, levelPath := il.2.path,
             percent := record.percent,
             score := score (il.1 + 1) record.percent il.2.percentToQualify,
             link := record.link } : Progressed ν) ∈ p.progressed) ∧
        (record.percent = 100 →
          ({ rank := il.1 + 1, level := il.2.name, levelPath := il.2.path,
             score := score (il.1 + 1) 100 il.2.percentToQualify,
             link := record.link } : Completed ν) ∈ p.completed) := by
  intro il hil record hr _
  obtain ⟨p, hp, hu, hc, hpr⟩ :=
    record_held lower hlower score round list packs players errs h il hil record hr
  exact ⟨p, hp, hu, hpr, hc⟩

/-- C11, amended, on a record at 10 percent of a level that asks for 50: a progress of score
1000. -/
theorem below_threshold_as_is_witness :
    fetchLeaderboardFrom asciiLower demoScore id (some belowList) none
        = .ok (some (belowPlayers, [])) ∧
    ∀ il ∈ loadedLevels belowList, ∀ record ∈ il.2.records,
      record.percent < il.2.percentToQualify →
      ∃ p ∈ belowPlayers, p.user = firstSeen asciiLower (foldNames belowList) record.user ∧
        (record.percent ≠ 100 →
          ({ rank := il.1 + 1, level := il.2.name, levelPath := il.2.path,
             percent := record.percent,
             score := demoScore (il.1 + 1) record.percent il.2.percentToQualify,
             link := record.link } : Progressed ℤ) ∈ p.progressed) ∧
        (record.percent = 100 →
          ({ rank := il.1 + 1, level := il.2.name, levelPath := il.2.path,
             score := demoScore (il.1 + 1) 100 il.2.percentToQualify,
             link := record.link } : Completed ℤ) ∈ p.completed) :=
  ⟨by decide,
   below_threshold_as_is asciiLower asciiLower_empty demoScore id belowList none belowPlayers []
     (by decide)⟩

/-- C11 as stated fails: with a score function that is not zero below the threshold, the record
of `Z` at 10 percent of a level that asks for 50 gets a progress whose score is 1000. -/
theorem below_threshold_counterexample :
    fetchLeaderboardFrom asciiLower demoScore id (some belowList) none
        = .ok (some (belowPlayers, [])) ∧
    ∃ il ∈ loadedLevels belowList, ∃ record ∈ il.2.records,
      record.percent < il.2.percentToQualify ∧
      ∃ p ∈ belowPlayers, ∃ c ∈ p.progressed,
        c.rank = il.1 + 1 ∧ c.percent = record.percent ∧ c.link = record.link ∧ c.score ≠ 0 := by
  decide

/-! ## Positional rank -/

/-- C12. Every loaded level at 0-based position `i` of the list (failed slots keep their
positions) has its verification and the entries of its records held with rank `i + 1`, and every
entry of every returned player is the entry of a level at some position `i` and carries rank
`i + 1`. -/
theorem positional_rank {ν : Type} [LinearOrderedRing ν] (lower : String → String)
    (hlower : ∀ s, lower s = lower "" → s = "") (score : Nat → ν → ν → ν) (round : ν → ν)
    (list : List (LoadResult ν)) (packs : Option (List Pack)) (players : List (Player ν))
    (errs : List String)
    (h : fetchLeaderboardFrom lower score round (some list) packs = .ok (some (players, errs))) :
    (∀ (i : Nat) (level : Level ν) (err : Option String),
      list[i]? = some (some level, err) → truthy err = false →
      (∃ p ∈ players, ∃ v ∈ p.verified, v = verifiedEntry score i level ∧ v.rank = i + 1) ∧
      ∀ record ∈ level.records, ∃ p ∈ players,
        (record.percent = 100 →
          ∃ c ∈ p.completed, c = completedEntry score i level record ∧ c.rank = i + 1) ∧
        (record.percent ≠ 100 →
          ∃ c ∈ p.progressed, c = progressedEntry score i level record ∧ c.rank = i + 1)) ∧
    (∀ p ∈ players,
      (∀ v ∈ p.verified, ∃ (i : Nat) (level : Level ν) (err : Option String),
        list[i]? = some (some level, err) ∧ truthy err = false ∧
          v = verifiedEntry score i level ∧ v.rank = i + 1) ∧
      (∀ c ∈ p.completed, ∃ (i : Nat) (level : Level ν) (err : Option String),
        list[i]? = some (some level, err) ∧ truthy err = false ∧
          (∃ record ∈ level.records, c = completedEntry score i level record) ∧
          c.rank = i + 1) ∧
      (∀ c ∈ p.progressed, ∃ (i : Nat) (level : Level ν) (err : Option String),
        list[i]? = some (some level, err) ∧ truthy err = false ∧
          (∃ record ∈ level.records, c = progressedEntry score i level record) ∧
          c.rank = i + 1)) := by
  obtain ⟨hv, hc, hp⟩ := returned_lists lower hlower score round list packs players errs h
  refine ⟨?_, ?_⟩
  · intro i level err hi ht
    have hil := mem_loadedLevels_at list i level err hi ht
    refine ⟨?_, ?_⟩
    · obtain ⟨p, hpm, _, hmem⟩ :=
        verifier_held lower hlower score round list packs players errs h (i, level) hil
      exact ⟨p, hpm, _, hmem, rfl, rfl⟩
    · intro record hr
      obtain ⟨p, hpm, _, h100, hn100⟩ :=
        record_held lower hlower score round list packs players errs h (i, level) hil record hr
      exact ⟨p, hpm, fun hh => ⟨_, h100 hh, rfl, rfl⟩, fun hh => ⟨_, hn100 hh, rfl, rfl⟩⟩
  · intro p hpm
    refine ⟨?_, ?_, ?_⟩
    · intro v hvm
      have hmem := hv.mem_iff.1 (List.mem_flatMap.2 ⟨p, hpm, hvm⟩)
      obtain ⟨il, hil, rfl⟩ := List.mem_map.1 hmem
      obtain ⟨err, hi, ht⟩ := loadedLevels_mem list il hil
      exact ⟨il.1, il.2, err, hi, ht, rfl, rfl⟩
    · intro c hcm
      have hmem := hc.mem_iff.1 (List.mem_flatMap.2 ⟨p, hpm, hcm⟩)
      obtain ⟨il, hil, r, hr, _, rfl⟩ := mem_completedOf score list c hmem
      obtain ⟨err, hi, ht⟩ := loadedLevels_mem list il hil
      exact ⟨il.1, il.2, err, hi, ht, ⟨r, hr, rfl⟩, rfl⟩
    · intro c hcm
      have hmem := hp.mem_iff.1 (List.mem_flatMap.2 ⟨p, hpm, hcm⟩)
      obtain ⟨il, hil, r, hr, _, rfl⟩ := mem_progressedOf score list c hmem
      obtain ⟨err, hi, ht⟩ := loadedLevels_mem list il hil
      exact ⟨il.1, il.2, err, hi, ht, ⟨r, hr, rfl⟩, rfl⟩

/-- C12 on a failed slot followed by a loaded level: the entries of the level carry rank 2. -/
theorem positional_rank_witness :
    fetchLeaderboardFrom asciiLower demoScore id (some gapList) none
        = .ok (some (gapPlayers, ["bad"])) ∧
    ((∀ (i : Nat) (level : Level ℤ) (err : Option String),
      gapList[i]? = some (some level, err) → truthy err = false →
      (∃ p ∈ gapPlayers, ∃ v ∈ p.verified, v = verifiedEntry demoScore i level ∧ v.rank = i + 1) ∧
      ∀ record ∈ level.records, ∃ p ∈ gapPlayers,
        (record.percent = 100 →
          ∃ c ∈ p.completed, c = completedEntry demoScore i level record ∧ c.rank = i + 1) ∧
        (record.percent ≠ 100 →
          ∃ c ∈ p.progressed, c = progressedEntry demoScore i level record ∧ c.rank = i + 1)) ∧
    (∀ p ∈ gapPlayers,
      (∀ v ∈ p.verified, ∃ (i : Nat) (level : Level ℤ) (err : Option String),
        gapList[i]? = some (some level, err) ∧ truthy err = false ∧
          v = verifiedEntry demoScore i level ∧ v.rank = i + 1) ∧
      (∀ c ∈ p.completed, ∃ (i : Nat) (level : Level ℤ) (err : Option String),
        gapList[i]? = some (some level, err) ∧ truthy err = false ∧
          (∃ record ∈ level.records, c = completedEntry demoScore i level record) ∧
          c.rank = i + 1) ∧
      (∀ c ∈ p.progressed, ∃ (i : Nat) (level : Level ℤ) (err : Option String),
        gapList[i]? = some (some level, err) ∧ truthy err = false ∧
          (∃ record ∈ level.records, c = progressedEntry demoScore i level record) ∧
          c.rank = i + 1))) ∧
    (gapPlayers.flatMap (fun p => p.verified)).map (fun v => v.rank) = [2] :=
  ⟨by decide,
   positional_rank asciiLower asciiLower_empty demoScore id gapList none gapPlayers ["bad"]
     (by decide),
   by decide⟩

/-! ## Empty packs, scores of the entries, and the catalog -/

/-- C17. No pack whose `levels` is empty or absent is in the `packs` of a returned player,
whether the catalog is available or not. -/
theorem empty_pack_never_completed {ν : Type} [LinearOrderedRing ν] (lower : String → String)
    (score : Nat → ν → ν → ν) (round : ν → ν) (list : List (LoadResult ν))
    (packs : Option (List Pack)) (players : List (Player ν)) (errs : List String)
    (h : fetchLeaderboardFrom lower score round (some list) packs = .ok (some (players, errs))) :
    ∀ p ∈ players, ∀ pack ∈ p.packs, pack.levels.getD [] ≠ [] := by
  intro p hp pack hpack
  obtain ⟨m, e, _, _, hpe⟩ := mem_players lower score round list packs players errs h p hp
  subst hpe
  cases packs with
  | none => simp [setPacks] at hpack
  | some catalog =>
    simp only [setPacks, List.mem_filter] at hpack
    exact ((packCompleted_iff (toPlayer round e) pack).1 hpack.2).1

/-- C17 on a catalog with an empty pack and a pack without `levels`. -/
theorem empty_pack_never_completed_witness :
    fetchLeaderboardFrom asciiLower demoScore id (some packList) (some packCatalog)
        = .ok (some (packPlayers, [])) ∧
    ∀ p ∈ packPlayers, ∀ pack ∈ p.packs, pack.levels.getD [] ≠ [] :=
  ⟨by decide,
   empty_pack_never_completed asciiLower demoScore id packList (some packCatalog) packPlayers []
     (by decide)⟩

/-- Two loaded levels at the same position are the same level. -/
theorem loadedLevels_level_eq {ν : Type} (list : List (LoadResult ν)) (a b : Nat × Level ν)
    (ha : a ∈ loadedLevels list) (hb : b ∈ loadedLevels list) (h : a.1 = b.1) : a.2 = b.2 := by
  obtain ⟨ea, hia, _⟩ := loadedLevels_mem list a ha
  obtain ⟨eb, hib, _⟩ := loadedLevels_mem list b hb
  rw [h, hib] at hia
  simp only [Option.some.injEq, Prod.mk.injEq] at hia
  exact hia.1.symm

/-- C18. Every `completed` entry of a returned player is the entry of a record at 100 percent of
a loaded level of rank `r`: its score is `score(r, 100, percentToQualify)`, its `levelPath` the
path of the level and its `link` the link of the record. Every `progressed` entry is the entry of
another record: its score is `score(r, percent, percentToQualify)` and it carries the percent, the
path and the link. Hence a `verified` entry and a `completed` entry of the same rank have the same
score. -/
theorem contribution_scores {ν : Type} [LinearOrderedRing ν] (lower : String → String)
    (hlower : ∀ s, lower s = lower "" → s = "") (score : Nat → ν → ν → ν) (round : ν → ν)
    (list : List (LoadResult ν)) (packs : Option (List Pack)) (players : List (Player ν))
    (errs : List String)
    (h : fetchLeaderboardFrom lower score round (some list) packs = .ok (some (players, errs))) :
    (∀ p ∈ players, ∀ c ∈ p.completed,
      ∃ il ∈ loadedLevels list, ∃ record ∈ il.2.records, record.percent = 100 ∧
        c = { rank := il.1 + 1, level := il.2.name, levelPath := il.2.path,
              score := score (il.1 + 1) 100 il.2.percentToQualify, link := record.link }) ∧
    (∀ p ∈ players, ∀ c ∈ p.progressed,
      ∃ il ∈ loadedLevels list, ∃ record ∈ il.2.records, record.percent ≠ 100 ∧
        c = { rank := il.1 + 1, level := il.2.name, levelPath := il.2.path,
              percent := record.percent,
              score := score (il.1 + 1) record.percent il.2.percentToQualify,
              link := record.link }) ∧
    (∀ p ∈ players, ∀ v ∈ p.verified, ∀ q ∈ players, ∀ c ∈ q.completed,
      v.rank = c.rank → v.score = c.score) := by
  obtain ⟨hv, hc, hp⟩ := returned_lists lower hlower score round list packs players errs h
  refine ⟨?_, ?_, ?_⟩
  · intro p hpm c hcm
    exact mem_completedOf score list c (hc.mem_iff.1 (List.mem_flatMap.2 ⟨p, hpm, hcm⟩))
  · intro p hpm c hcm
    exact mem_progressedOf score list c (hp.mem_iff.1 (List.mem_flatMap.2 ⟨p, hpm, hcm⟩))
  · intro p hpm v hvm q hqm c hcm hrank
    have hmem := hv.mem_iff.1 (List.mem_flatMap.2 ⟨p, hpm, hvm⟩)
    obtain ⟨il, hil, rfl⟩ := List.mem_map.1 hmem
    obtain ⟨il2, hil2, r, _, _, rfl⟩ :=
      mem_completedOf score list c (hc.mem_iff.1 (List.mem_flatMap.2 ⟨q, hqm, hcm⟩))
    simp only [verifiedEntry, completedEntry, Nat.add_right_cancel_iff] at hrank
    have hlevel := loadedLevels_level_eq list il il2 hil hil2 hrank
    simp only [verifiedEntry, completedEntry, hrank, hlevel]

/-- C18 on the two levels of `packList`. -/
theorem contribution_scores_witness :
    fetchLeaderboardFrom asciiLower demoScore id (some packList) (some packCatalog)
        = .ok (some (packPlayers, [])) ∧
    ((∀ p ∈ packPlayers, ∀ c ∈ p.completed,
      ∃ il ∈ loadedLevels packList, ∃ record ∈ il.2.records, record.percent = 100 ∧
        c = { rank := il.1 + 1, level := il.2.name, levelPath := il.2.path,
              score := demoScore (il.1 + 1) 100 il.2.percentToQualify, link := record.link }) ∧
    (∀ p ∈ packPlayers, ∀ c ∈ p.progressed,
      ∃ il ∈ loadedLevels packList, ∃ record ∈ il.2.records, record.percent ≠ 100 ∧
        c = { rank := il.1 + 1, level := il.2.name, levelPath := il.2.path,
              percent := record.percent,
              score := demoScore (il.1 + 1) record.percent il.2.percentToQualify,
              link := record.link }) ∧
    (∀ p ∈ packPlayers, ∀ v ∈ p.verified, ∀ q ∈ packPlayers, ∀ c ∈ q.completed,
      v.rank = c.rank → v.score = c.score)) :=
  ⟨by decide,
   contribution_scores asciiLower asciiLower_empty demoScore id packList (some packCatalog)
     packPlayers [] (by decide)⟩

theorem arraySort_map_clearPacks {ν : Type} [LinearOrderedRing ν] (l : List (Player ν)) :
    arraySort (fun a b => b.total - a.total) (l.map clearPacks)
      = (arraySort (fun a b => b.total - a.total) l).map clearPacks := by
  unfold arraySort
  exact (List.map_insertionSort (fun a b : Player ν => b.total - a.total ≤ 0)
    (fun a b : Player ν => b.total - a.total ≤ 0) clearPacks l
    (fun a _ b _ => Iff.rfl)).symm

/-! ## What `fetchList` returns -/

theorem mapM_loadLevel_ok {ν : Type} [LinearOrderedRing ν] (ds : DataSource ν)
    (levelToPacks : PlainObject (List PackSummary)) :
    ∀ (list : List String) (slots : List (LoadResult ν)),
      list.mapM (loadLevel ds levelToPacks) = .ok slots →
      ∀ path ∈ list, ds.level path ≠ .rejected
  | [], _, _ => by
    intro path hp
    cases hp
  | p :: list, slots, h => by
    rw [List.mapM_cons] at h
    cases hl : loadLevel ds levelToPacks p with
    | error e =>
      rw [hl] at h
      cases h
    | ok slot =>
      rw [hl] at h
      cases hm : list.mapM (loadLevel ds levelToPacks) with
      | error e =>
        rw [hm] at h
        cases h
      | ok rest =>
        have ih := mapM_loadLevel_ok ds levelToPacks list rest hm
        intro path hp
        rw [List.mem_cons] at hp
        rcases hp with rfl | hp
        · intro hrej
          unfold loadLevel at hl
          rw [hrej] at hl
          cases hl
        · exact ih path hp

/-- When `fetchList` returns a sequence, the index was built, the list parsed, no `fetch` of a
level rejected, and every slot is made from the document of its own level. -/
theorem fetchList_ok {ν : Type} [LinearOrderedRing ν] (ds : DataSource ν)
    (slots : List (LoadResult ν)) (h : fetchList ds = .ok (some slots)) :
    ∃ levelToPacks list, indexPacks (fetchPacks ds) = .ok levelToPacks ∧
      ds.list = .parsed list ∧ (∀ path ∈ list, ds.level path ≠ .rejected) ∧
      slots = list.map (slotOf ds levelToPacks) := by
  unfold fetchList at h
  cases hidx : indexPacks (fetchPacks ds) with
  | error e =>
    rw [hidx] at h
    cases h
  | ok levelToPacks =>
    rw [hidx] at h
    cases hlist : ds.list with
    | rejected => simp [hlist] at h
    | unparsable => simp [hlist] at h
    | parsed list =>
      rw [hlist] at h
      dsimp only at h
      cases hm : list.mapM (loadLevel ds levelToPacks) with
      | error e =>
        rw [hm] at h
        cases h
      | ok slots2 =>
        have hnr := mapM_loadLevel_ok ds levelToPacks list slots2 hm
        rw [mapM_loadLevel ds levelToPacks list hnr] at h
        simp only [Except.ok.injEq, Option.some.injEq] at h
        exact ⟨levelToPacks, list, rfl, rfl, hnr, h.symm⟩

/-- The shape of the sequence `fetchList` returns: one slot per identifier, in list order, a
level with that identifier as `path` and no error, or no level and that identifier. -/
theorem fetchList_shape {ν : Type} [LinearOrderedRing ν] (ds : DataSource ν)
    (slots : List (LoadResult ν)) (h : fetchList ds = .ok (some slots)) :
    ∃ list, ds.list = .parsed list ∧ slots.length = list.length ∧
      ∀ (i : Nat) (path : String), list[i]? = some path →
        (∃ level, slots[i]? = some (some level, none) ∧ level.path = path) ∨
        slots[i]? = some (none, some path) := by
  obtain ⟨levelToPacks, list, _, hlist, _, hslots⟩ := fetchList_ok ds slots h
  refine ⟨list, hlist, by rw [hslots, List.length_map], ?_⟩
  intro i path hi
  rw [hslots, List.getElem?_map, hi]
  simp only [Option.map_some', slotOf]
  cases ds.level path with
  | rejected => exact Or.inr rfl
  | unparsable => exact Or.inr rfl
  | parsed doc => exact Or.inl ⟨_, rfl, rfl⟩

theorem arraySort_sorted_by {α ν : Type} [LinearOrderedRing ν] (key : α → ν) (xs : List α) :
    (arraySort (fun a b => key b - key a) xs).Pairwise (fun a b => key b ≤ key a) := by
  haveI : IsTotal α (fun a b => key b - key a ≤ 0) :=
    ⟨fun a b => by
      simp only [sub_nonpos]
      exact le_total _ _⟩
  haveI : IsTrans α (fun a b => key b - key a ≤ 0) :=
    ⟨fun a b c hab hbc => by
      simp only [sub_nonpos] at hab hbc ⊢
      exact le_trans hbc hab⟩
  have hs : (arraySort (fun a b => key b - key a) xs).Pairwise (fun a b => key b - key a ≤ 0) :=
    List.sorted_insertionSort (fun a b : α => key b - key a ≤ 0) xs
  exact hs.imp (fun hab => by simpa only [sub_nonpos] using hab)

/-- C13. In the sequence `fetchList` returns, the `records` of every loaded level are a
permutation of the records of its document with `hz` removed and the other fields kept, their
percents are in non-increasing order, records of equal percent keep their order, and a document
without `records` gets the empty list. -/
theorem record_normalization {ν : Type} [LinearOrderedRing ν] (ds : DataSource ν)
    (slots : List (LoadResult ν)) (h : fetchList ds = .ok (some slots)) :
    (∃ list, ds.list = .parsed list ∧
      ∀ (i : Nat) (level : Level ν) (err : Option String),
        slots[i]? = some (some level, err) →
        ∃ path doc, list[i]? = some path ∧ ds.level path = .parsed doc ∧
          level.records.Perm ((doc.records.getD []).map stripHz) ∧
          level.records.Pairwise (fun a b => b.percent ≤ a.percent) ∧
          (∀ a b, a.percent = b.percent →
            [a, b].Sublist ((doc.records.getD []).map stripHz) → [a, b].Sublist level.records) ∧
          (doc.records = none → level.records = [])) ∧
    ∀ r : RawRecord ν, (stripHz r).user = r.user ∧ (stripHz r).percent = r.percent ∧
      (stripHz r).link = r.link ∧ (stripHz r).rest = r.rest := by
  refine ⟨?_, fun r => ⟨rfl, rfl, rfl, rfl⟩⟩
  obtain ⟨levelToPacks, list, _, hlist, _, hslots⟩ := fetchList_ok ds slots h
  refine ⟨list, hlist, ?_⟩
  intro i level err hi
  rw [hslots, List.getElem?_map] at hi
  cases hp : list[i]? with
  | none =>
    rw [hp] at hi
    cases hi
  | some path =>
    rw [hp] at hi
    simp only [Option.map_some', Option.some.injEq, slotOf] at hi
    cases hd : ds.level path with
    | rejected =>
      rw [hd] at hi
      cases hi
    | unparsable =>
      rw [hd] at hi
      cases hi
    | parsed doc =>
      rw [hd] at hi
      simp only [Prod.mk.injEq, Option.some.injEq] at hi
      refine ⟨path, doc, rfl, hd, ?_⟩
      rw [← hi.1]
      simp only [normalizeRecords]
      refine ⟨arraySort_perm _ _, arraySort_sorted_by (fun r : Record ν => r.percent) _, ?_, ?_⟩
      · intro a b hab hsub
        apply arraySort_stable
        · rw [hab, sub_self]
        · exact hsub
      · intro hnone
        rw [hnone]
        rfl

/-- C13 on a document whose records are at 60, 100 and 60 percent, and a document without
`records`. -/
theorem record_normalization_witness :
    fetchList recordsSource = .ok (some recordsSlots) ∧
    ((∃ list, recordsSource.list = .parsed list ∧
      ∀ (i : Nat) (level : Level ℤ) (err : Option String),
        recordsSlots[i]? = some (some level, err) →
        ∃ path doc, list[i]? = some path ∧ recordsSource.level path = .parsed doc ∧
          level.records.Perm ((doc.records.getD []).map stripHz) ∧
          level.records.Pairwise (fun a b => b.percent ≤ a.percent) ∧
          (∀ a b, a.percent = b.percent →
            [a, b].Sublist ((doc.records.getD []).map stripHz) → [a, b].Sublist level.records) ∧
          (doc.records = none → level.records = [])) ∧
    ∀ r : RawRecord ℤ, (stripHz r).user = r.user ∧ (stripHz r).percent = r.percent ∧
      (stripHz r).link = r.link ∧ (stripHz r).rest = r.rest) :=
  ⟨by decide, record_normalization recordsSource recordsSlots (by decide)⟩

/-- C14 fails when the `fetch` of a level rejects: `_list.json` parses to two identifiers and
`fetchList` returns `null`, not a sequence of two slots. When no `fetch` rejects it returns the
two slots, the first with the identifier `a` as `path` although the document carries its own
`path`, `packs` and `records`. -/
theorem fetchList_shape_rejected :
    recordsSourceRejected.list = .parsed ["a", "n"] ∧
    fetchList recordsSourceRejected = .ok none ∧
    fetchList recordsSource = .ok (some recordsSlots) ∧
    recordsSlots.map (fun slot => (slot.1.map (fun level => level.path), slot.2))
      = [(some "a", none), (some "n", none)] := by
  decide

/-! ## The pack annotation of `fetchList` -/

/-- The two ways in which a push on `levelToPacks` succeeds. -/
theorem pushPack_ok (idx idx2 : PlainObject (List PackSummary)) (id : String) (s : PackSummary)
    (h : pushPack idx id s = .ok idx2) :
    (id ∈ idx.map (fun e => e.1) ∧ idx2 = modifyOwn idx id (fun l => l ++ [s])) ∨
    (id ∉ idx.map (fun e => e.1) ∧ id ∉ objectPrototypeKeys ∧ idx2 = idx ++ [(id, [s])]) := by
  unfold pushPack nullishAssign at h
  cases hg : getOwn idx id with
  | some v =>
    have hmem : id ∈ idx.map (fun e => e.1) := by
      by_contra hn
      rw [(getOwn_eq_none idx id).2 hn] at hg
      cases hg
    simp only [get, hg] at h
    left
    refine ⟨hmem, ?_⟩
    injection h with h
    exact h.symm
  | none =>
    have hn : id ∉ idx.map (fun e => e.1) := (getOwn_eq_none idx id).1 hg
    by_cases hi : id ∈ objectPrototypeKeys
    · simp [get, hg, hi] at h
    · right
      refine ⟨hn, hi, ?_⟩
      have hg2 : getOwn (idx ++ [(id, ([] : List PackSummary))]) id = some [] := by
        unfold getOwn at hg ⊢
        have hf : List.find? (fun e => e.1 == id) idx = none := by
          cases hfm : List.find? (fun e => e.1 == id) idx with
          | none => rfl
          | some x => rw [hfm] at hg; cases hg
        rw [List.find?_append, hf]
        simp
      simp only [get, hg, hi, if_false, hg2] at h
      injection h with h
      rw [← h]
      unfold modifyOwn
      rw [List.map_append]
      have := modifyOwn_of_not_mem idx id (fun l => l ++ [s]) hn
      unfold modifyOwn at this
      rw [this]
      simp

theorem getOwn_some_mem {α : Type} (o : PlainObject α) (k : String) (v : α)
    (h : getOwn o k = some v) : (k, v) ∈ o := by
  unfold getOwn at h
  cases hf : List.find? (fun e => e.1 == k) o with
  | none => rw [hf] at h; cases h
  | some e =>
    rw [hf] at h
    simp only [Option.map_some', Option.some.injEq] at h
    have hk := List.find?_some hf
    simp only [beq_iff_eq] at hk
    have hmem := List.mem_of_find?_eq_some hf
    rw [← hk, ← h]
    exact hmem

theorem IndexInv.empty : IndexInv [] [] where
  nodup := List.nodup_nil
  values := by simp
  covered := by simp

theorem IndexInv.push {evs : List (String × PackSummary)} {idx idx2 : PlainObject (List PackSummary)}
    (inv : IndexInv evs idx) (e : String × PackSummary)
    (h : pushPack idx e.1 e.2 = .ok idx2) : IndexInv (evs ++ [e]) idx2 := by
  obtain ⟨id, s⟩ := e
  rcases pushPack_ok idx idx2 id s h with ⟨hk, hm2⟩ | ⟨hno, _, hm2⟩
  · subst hm2
    refine ⟨?_, ?_, ?_⟩
    · rw [modifyOwn_keys]
      exact inv.nodup
    · intro e2 he2
      unfold modifyOwn at he2
      rw [List.mem_map] at he2
      obtain ⟨e1, he1, rfl⟩ := he2
      have hs := inv.values e1 he1
      by_cases h1 : e1.1 = id
      · simp only [h1, if_true, List.filter_append, List.map_append]
        rw [← h1, ← hs]
        simp [List.filter_cons, h1]
      · simp only [h1, if_false, List.filter_append, List.map_append]
        rw [← hs]
        have : (id == e1.1) = false := by
          simp only [beq_eq_false_iff_ne, ne_eq]
          exact fun hh => h1 hh.symm
        simp [List.filter_cons, this]
    · intro e2 he2
      rw [modifyOwn_keys]
      rw [List.mem_append, List.mem_singleton] at he2
      rcases he2 with he2 | rfl
      · exact inv.covered e2 he2
      · exact hk
  · subst hm2
    have hfresh : evs.filter (fun x => x.1 == id) = [] := by
      rw [List.filter_eq_nil_iff]
      intro x hx hxe
      simp only [beq_iff_eq] at hxe
      exact hno (hxe ▸ inv.covered x hx)
    refine ⟨?_, ?_, ?_⟩
    · rw [List.map_append, List.nodup_append]
      refine ⟨inv.nodup, by simp, ?_⟩
      intro a ha hb
      simp only [List.map_cons, List.map_nil, List.mem_singleton] at hb
      exact hno (hb ▸ ha)
    · intro e2 he2
      rw [List.mem_append, List.mem_singleton] at he2
      rcases he2 with he2 | rfl
      · have hne : (id == e2.1) = false := by
          simp only [beq_eq_false_iff_ne, ne_eq]
          intro hh
          exact hno (hh ▸ List.mem_map.2 ⟨e2, he2, rfl⟩)
        rw [List.filter_append, List.map_append, ← inv.values e2 he2]
        simp [List.filter_cons, hne]
      · rw [List.filter_append, hfresh]
        simp [List.filter_cons]
    · intro e2 he2
      rw [List.map_append]
      rw [List.mem_append, List.mem_singleton] at he2
      rcases he2 with he2 | rfl
      · exact List.mem_append_left _ (inv.covered e2 he2)
      · simp

theorem foldlM_pushPack_inv (evs : List (String × PackSummary)) :
    ∀ idx, evs.foldlM (fun acc e => pushPack acc e.1 e.2) [] = .ok idx → IndexInv evs idx := by
  induction evs using List.reverseRecOn with
  | nil =>
    intro idx h
    simp only [List.foldlM_nil, pure, Except.pure, Except.ok.injEq] at h
    subst h
    exact IndexInv.empty
  | append_singleton evs e ih =>
    intro idx h
    rw [List.foldlM_append] at h
    cases hm : evs.foldlM (fun acc e => pushPack acc e.1 e.2) [] with
    | error err =>
      rw [hm] at h
      cases h
    | ok idx1 =>
      rw [hm] at h
      have h2 : pushPack idx1 e.1 e.2 = .ok idx := by
        simp only [List.foldlM_cons, List.foldlM_nil, bind, Except.bind] at h
        cases hstep : pushPack idx1 e.1 e.2 with
        | error err => rw [hstep] at h; cases h
        | ok idx3 =>
          rw [hstep] at h
          simp only [pure, Except.pure] at h
          exact h
      exact (ih idx1 hm).push e h2

theorem foldlM_packs_eq_events :
    ∀ (catalog : List Pack) (acc : PlainObject (List PackSummary)),
      catalog.foldlM (fun acc pack =>
        (pack.levels.getD []).foldlM (fun acc levelId =>
          pushPack acc levelId { name := pack.name, colour := pack.colour }) acc) acc
      = (packEvents catalog).foldlM (fun acc e => pushPack acc e.1 e.2) acc
  | [], _ => rfl
  | pack :: rest, acc => by
    unfold packEvents
    rw [List.foldlM_cons, List.flatMap_cons, List.foldlM_append, List.foldlM_map]
    cases (pack.levels.getD []).foldlM (fun acc levelId =>
        pushPack acc levelId { name := pack.name, colour := pack.colour }) acc with
    | error e => rfl
    | ok acc2 => exact foldlM_packs_eq_events rest acc2

theorem packEvents_filter (path : String) :
    ∀ catalog : List Pack,
      ((packEvents catalog).filter (fun x => x.1 == path)).map (fun x => x.2)
        = summariesFor catalog path
  | [] => rfl
  | pack :: rest => by
    unfold packEvents summariesFor
    rw [List.flatMap_cons, List.flatMap_cons, List.filter_append, List.map_append]
    have ih := packEvents_filter path rest
    unfold packEvents summariesFor at ih
    rw [ih]
    congr 1
    rw [List.filter_map, List.map_map]
    rfl

/-- The annotation read from the index of a catalog, for a name that `Object.prototype` does
not hold. -/
theorem packsOf_indexPacks (catalog : List Pack) (idx : PlainObject (List PackSummary))
    (path : String) (h : indexPacks (some catalog) = .ok idx) (hp : path ∉ objectPrototypeKeys) :
    packsOf idx path = .summaries (summariesFor catalog path) := by
  unfold indexPacks at h
  simp only at h
  rw [foldlM_packs_eq_events] at h
  have inv := foldlM_pushPack_inv (packEvents catalog) idx h
  rw [← packEvents_filter]
  unfold packsOf get
  cases hg : getOwn idx path with
  | some v =>
    have hv := inv.values (path, v) (getOwn_some_mem idx path v hg)
    simp only at hv
    simp only
    rw [hv]
  | none =>
    have hn : path ∉ idx.map (fun e => e.1) := (getOwn_eq_none idx path).1 hg
    have hfresh : (packEvents catalog).filter (fun x => x.1 == path) = [] := by
      rw [List.filter_eq_nil_iff]
      intro x hx hxe
      simp only [beq_iff_eq] at hxe
      exact hn (hxe ▸ inv.covered x hx)
    simp only [hp, if_false, hfresh, List.map_nil]

/-- In the sequence `fetchList` returns, a loaded level whose identifier is not the name of a
member of `Object.prototype` carries the summaries of the packs that hold it, in catalog order
and one per occurrence; the empty list when the catalog is unavailable. -/
theorem pack_membership {ν : Type} [LinearOrderedRing ν] (ds : DataSource ν)
    (slots : List (LoadResult ν)) (h : fetchList ds = .ok (some slots)) :
    ∀ (i : Nat) (level : Level ν) (err : Option String),
      slots[i]? = some (some level, err) → level.path ∉ objectPrototypeKeys →
      level.packs = .summaries
        (match fetchPacks ds with
         | some catalog => summariesFor catalog level.path
         | none => []) := by
  obtain ⟨idx, list, hidx, _, _, hslots⟩ := fetchList_ok ds slots h
  intro i level err hi hproto
  rw [hslots, List.getElem?_map] at hi
  cases hp : list[i]? with
  | none =>
    rw [hp] at hi
    cases hi
  | some path =>
    rw [hp] at hi
    simp only [Option.map_some', Option.some.injEq, slotOf] at hi
    cases hd : ds.level path with
    | rejected =>
      rw [hd] at hi
      cases hi
    | unparsable =>
      rw [hd] at hi
      cases hi
    | parsed doc =>
      rw [hd] at hi
      simp only [Prod.mk.injEq, Option.some.injEq] at hi
      rw [← hi.1] at hproto ⊢
      simp only at hproto ⊢
      cases hpk : fetchPacks ds with
      | none =>
        rw [hpk] at hidx
        simp only [indexPacks, Except.ok.injEq] at hidx
        rw [← hidx]
        simp [packsOf, get, getOwn, hproto]
      | some catalog =>
        rw [hpk] at hidx
        exact packsOf_indexPacks catalog idx path hidx hproto

/-- C19 fails on identifiers that name a member of `Object.prototype`: no pack holds the level
`toString`, and its `packs` is the inherited member, not the empty list; and when a pack holds a
level named `constructor`, building the index throws. On other identifiers the annotation is as
claimed: the level `a`, listed twice by the pack `P`, carries its summary twice. -/
theorem fetchList_inherited_member :
    (fetchList protoSource).toOption.map
      (fun r => r.map (fun slots => slots.map (fun slot => slot.1.map (fun level => level.packs))))
      = some (some [some .inheritedMember]) ∧
    fetchList protoPackSource = .error .typeError ∧
    (fetchList recordsSource).toOption.map
      (fun r => r.map (fun slots => slots.map (fun slot => slot.1.map (fun level => level.packs))))
      = some (some [some (.summaries [{ name := "P", colour := "red" },
                                      { name := "P", colour := "red" }]),
                    some (.summaries [])]) := by
  decide

/-! ## `fetchPackLevels` and `fetchList` -/

/-- C20, amended. When the catalog is available and holds a pack of the given name,
`fetchPackLevels` returns one slot per level identifier of the first such pack, in the order of
the pack. For a document that parses, the slot pairs `null` with an object whose single property
`level` holds a level with the same name, threshold, verifier, verification, `path` and normalized
`records` as the level `fetchList` makes of that document, and with the `packs` of the document
instead of a pack annotation; otherwise (the `fetch` rejects or the body does not parse) the slot
is `(null, identifier)`. It returns `null` when the catalog is unavailable or holds no pack of
that name. -/
theorem fetchPackLevels_agrees {ν : Type} [LinearOrderedRing ν] (ds : DataSource ν)
    (packName : String) :
    (∀ catalog pack, fetchPacks ds = some catalog →
      catalog.find? (fun p => p.name == packName) = some pack →
      ∃ slots, fetchPackLevels ds packName = some slots ∧
        slots.length = (pack.levels.getD []).length ∧
        ∀ (i : Nat) (path : String), (pack.levels.getD [])[i]? = some path →
          (∀ doc, ds.level path = .parsed doc → ∀ levelToPacks,
            ∃ held level, slots[i]? = some (some (.holder held), none) ∧
              slotOf ds levelToPacks path = (some level, none) ∧
              held.path = path ∧ level.path = path ∧ held.records = level.records ∧
              held.records = normalizeRecords doc.records ∧ held.name = level.name ∧
              held.percentToQualify = level.percentToQualify ∧ held.verifier = level.verifier ∧
              held.verification = level.verification ∧ held.packs = doc.packs) ∧
          ((∀ doc, ds.level path ≠ .parsed doc) → slots[i]? = some (none, some path))) ∧
    (fetchPacks ds = none → fetchPackLevels ds packName = none) ∧
    (∀ catalog, fetchPacks ds = some catalog →
      catalog.find? (fun p => p.name == packName) = none → fetchPackLevels ds packName = none) := by
  refine ⟨?_, ?_, ?_⟩
  · intro catalog pack hc hp
    refine ⟨(pack.levels.getD []).map (loadPackLevel ds), ?_, by rw [List.length_map], ?_⟩
    · simp only [fetchPackLevels, hc, hp]
    · intro i path hi
      rw [List.getElem?_map, hi]
      refine ⟨?_, ?_⟩
      · intro doc hd levelToPacks
        simp only [Option.map_some', loadPackLevel, slotOf, hd]
        exact ⟨_, _, rfl, rfl, rfl, rfl, rfl, rfl, rfl, rfl, rfl, rfl, rfl⟩
      · intro hno
        cases hd : ds.level path with
        | rejected => simp only [Option.map_some', loadPackLevel, hd]
        | unparsable => simp only [Option.map_some', loadPackLevel, hd]
        | parsed doc => exact absurd hd (hno doc)
  · intro hc
    simp only [fetchPackLevels, hc]
  · intro catalog hc hp
    simp only [fetchPackLevels, hc, hp]

/-- C20, amended, on the pack `P` of the levels `a`, which loads, and `x`, which does not
parse. -/
theorem fetchPackLevels_agrees_witness :
    fetchPackLevels packLevelSource "P" = some [(some (.holder packLevelA), none), (none, some "x")] ∧
    fetchPackLevels packLevelSource "Q" = none ∧
    fetchPackLevels rejectedListSource "P" = none ∧
    ((∀ catalog pack, fetchPacks packLevelSource = some catalog →
      catalog.find? (fun p => p.name == "P") = some pack →
      ∃ slots, fetchPackLevels packLevelSource "P" = some slots ∧
        slots.length = (pack.levels.getD []).length ∧
        ∀ (i : Nat) (path : String), (pack.levels.getD [])[i]? = some path →
          (∀ doc, packLevelSource.level path = .parsed doc → ∀ levelToPacks,
            ∃ held level, slots[i]? = some (some (.holder held), none) ∧
              slotOf packLevelSource levelToPacks path = (some level, none) ∧
              held.path = path ∧ level.path = path ∧ held.records = level.records ∧
              held.records = normalizeRecords doc.records ∧ held.name = level.name ∧
              held.percentToQualify = level.percentToQualify ∧ held.verifier = level.verifier ∧
              held.verification = level.verification ∧ held.packs = doc.packs) ∧
          ((∀ doc, packLevelSource.level path ≠ .parsed doc) →
            slots[i]? = some (none, some path))) ∧
    (fetchPacks packLevelSource = none → fetchPackLevels packLevelSource "P" = none) ∧
    (∀ catalog, fetchPacks packLevelSource = some catalog →
      catalog.find? (fun p => p.name == "P") = none →
      fetchPackLevels packLevelSource "P" = none)) :=
  ⟨by decide, by decide, by decide, fetchPackLevels_agrees packLevelSource "P"⟩

/-- C20 as stated fails: for the level `a` of the pack `P`, `fetchList` pairs the level with
`null`, and `fetchPackLevels` pairs with `null` an object whose property `level` holds the level,
which is not the load result of `fetchList` without its annotation. -/
theorem fetchPackLevels_counterexample :
    fetchList packLevelSource = .ok (some packLevelSlots) ∧
    packLevelSlots.map asLevelSlot = [(some (.level packLevelA), none), (none, some "x")] ∧
    fetchPackLevels packLevelSource "P"
      = some [(some (.holder packLevelA), none), (none, some "x")] ∧
    fetchPackLevels packLevelSource "P" ≠ some (packLevelSlots.map asLevelSlot) := by
  decide

/-! ## The catalog only decides `packs` -/

/-- Without a catalog `fetchLeaderboardFrom` does what it does with one, `packs` emptied. -/
theorem fetchLeaderboardFrom_without_catalog {ν : Type} [LinearOrderedRing ν]
    (lower : String → String) (score : Nat → ν → ν → ν) (round : ν → ν)
    (list : Option (List (LoadResult ν))) (catalog : List Pack) :
    fetchLeaderboardFrom lower score round list none =
      clearResult (fetchLeaderboardFrom lower score round list (some catalog)) := by
  cases list with
  | none => rfl
  | some l =>
    simp only [fetchLeaderboardFrom]
    cases foldList lower score l with
    | error e => rfl
    | ok r =>
      obtain ⟨m, errs⟩ := r
      simp only [clearResult, Except.ok.injEq, Option.some.injEq, Prod.mk.injEq, and_true]
      rw [assignPacks_eq_map, assignPacks_eq_map, ← arraySort_map_clearPacks, List.map_map]
      rfl

/-- The callback of `list.forEach` does not read the pack annotation of the level. -/
theorem processSlot_forgetPacks {ν : Type} [LinearOrderedRing ν] (lower : String → String)
    (score : Nat → ν → ν → ν) (acc : PlainObject (Scores ν) × List String)
    (slot : Nat × LoadResult ν) :
    processSlot lower score acc (slot.1, forgetPacks slot.2) = processSlot lower score acc slot := by
  obtain ⟨i, level, err⟩ := slot
  cases level with
  | none => rfl
  | some l => rfl

theorem foldList_forgetPacks {ν : Type} [LinearOrderedRing ν] (lower : String → String)
    (score : Nat → ν → ν → ν) (list : List (LoadResult ν)) :
    foldList lower score (list.map forgetPacks) = foldList lower score list := by
  unfold foldList
  rw [List.enum_map, List.foldlM_map]
  congr 1
  funext acc slot
  exact processSlot_forgetPacks lower score acc slot

theorem fetchLeaderboardFrom_forgetPacks {ν : Type} [LinearOrderedRing ν]
    (lower : String → String) (score : Nat → ν → ν → ν) (round : ν → ν)
    (list : List (LoadResult ν)) (packs : Option (List Pack)) :
    fetchLeaderboardFrom lower score round (some (list.map forgetPacks)) packs
      = fetchLeaderboardFrom lower score round (some list) packs := by
  simp only [fetchLeaderboardFrom, foldList_forgetPacks]

theorem slotOf_forgetPacks {ν : Type} [LinearOrderedRing ν] (ds ds2 : DataSource ν)
    (idx idx2 : PlainObject (List PackSummary)) (path : String)
    (hlevel : ds.level = ds2.level) :
    forgetPacks (slotOf ds idx path) = forgetPacks (slotOf ds2 idx2 path) := by
  unfold slotOf
  rw [hlevel]
  cases ds2.level path <;> rfl

/-- The leaderboard of a data source whose catalog is unavailable is the leaderboard of the same
lists and levels with a catalog, every `packs` emptied. -/
theorem fetchLeaderboard_without_catalog {ν : Type} [LinearOrderedRing ν]
    (lower : String → String) (score : Nat → ν → ν → ν) (round : ν → ν)
    (ds ds2 : DataSource ν) (catalog : List Pack) (players : List (Player ν))
    (errs : List String) (hlist : ds.list = ds2.list) (hlevel : ds.level = ds2.level)
    (hnone : fetchPacks ds = none) (hsome : fetchPacks ds2 = some catalog)
    (h : fetchLeaderboard lower score round ds2 = .ok (some (players, errs))) :
    fetchLeaderboard lower score round ds = .ok (some (players.map clearPacks, errs)) := by
  unfold fetchLeaderboard at h ⊢
  cases hf2 : fetchList ds2 with
  | error e =>
    rw [hf2] at h
    cases h
  | ok r =>
    rw [hf2] at h
    cases r with
    | none => simp [fetchLeaderboardFrom] at h
    | some slots2 =>
      obtain ⟨idx2, list, _, hl2, hnr2, hs2⟩ := fetchList_ok ds2 slots2 hf2
      have hidx : indexPacks (fetchPacks ds) = .ok [] := by
        rw [hnone]
        rfl
      have hnr : ∀ path ∈ list, ds.level path ≠ .rejected := by
        intro path hp
        rw [hlevel]
        exact hnr2 path hp
      have hf : fetchList ds = .ok (some (list.map (slotOf ds []))) :=
        fetchList_slots ds [] list hidx (hlist.trans hl2) hnr
      have hforget : (list.map (slotOf ds [])).map forgetPacks = slots2.map forgetPacks := by
        rw [hs2, List.map_map, List.map_map]
        apply List.map_congr_left
        intro path _
        exact slotOf_forgetPacks ds ds2 [] idx2 path hlevel
      rw [hf, hnone]
      rw [hsome] at h
      simp only at h ⊢
      rw [← fetchLeaderboardFrom_forgetPacks, hforget, fetchLeaderboardFrom_forgetPacks,
        fetchLeaderboardFrom_without_catalog lower score round (some slots2) catalog, h]
      rfl

/-- C15. For every list of load results and every catalog, what `fetchLeaderboard` does when
the catalog is unavailable is what it does with the catalog, with the `packs` of every player
emptied: it returns `null`, throws or returns a pair in the same cases, with the same players in
the same order, the same `user`, `total`, `verified`, `completed` and `progressed`, and the same
failure list; without a catalog every player has empty `packs`; and a data source without a
catalog gives the leaderboard of the same data source with a catalog, every `packs` emptied. -/
theorem catalog_frame {ν : Type} [LinearOrderedRing ν] (lower : String → String)
    (score : Nat → ν → ν → ν) (round : ν → ν) :
    (∀ (list : Option (List (LoadResult ν))) (catalog : List Pack),
      fetchLeaderboardFrom lower score round list none =
        clearResult (fetchLeaderboardFrom lower score round list (some catalog))) ∧
    (∀ (list : Option (List (LoadResult ν))) players errs,
      fetchLeaderboardFrom lower score round list none = .ok (some (players, errs)) →
      ∀ p ∈ players, p.packs = []) ∧
    (∀ (ds ds2 : DataSource ν) (catalog : List Pack) players errs,
      ds.list = ds2.list → ds.level = ds2.level → fetchPacks ds = none →
      fetchPacks ds2 = some catalog →
      fetchLeaderboard lower score round ds2 = .ok (some (players, errs)) →
      fetchLeaderboard lower score round ds = .ok (some (players.map clearPacks, errs))) := by
  refine ⟨fetchLeaderboardFrom_without_catalog lower score round, ?_, ?_⟩
  · intro list players errs h p hp
    cases list with
    | none => simp [fetchLeaderboardFrom] at h
    | some l =>
      obtain ⟨m, e, _, _, hpe⟩ := mem_players lower score round l none players errs h p hp
      rw [hpe]
      rfl
  · intro ds ds2 catalog players errs hlist hlevel hnone hsome h
    exact fetchLeaderboard_without_catalog lower score round ds ds2 catalog players errs
      hlist hlevel hnone hsome h

/-- C15 on the levels of `recordsSource`, with its catalog and with the catalog unavailable. -/
theorem catalog_frame_witness :
    ((∀ (list : Option (List (LoadResult ℤ))) (catalog : List Pack),
      fetchLeaderboardFrom asciiLower demoScore id list none =
        clearResult (fetchLeaderboardFrom asciiLower demoScore id list (some catalog))) ∧
    (∀ (list : Option (List (LoadResult ℤ))) players errs,
      fetchLeaderboardFrom asciiLower demoScore id list none = .ok (some (players, errs)) →
      ∀ p ∈ players, p.packs = []) ∧
    (∀ (ds ds2 : DataSource ℤ) (catalog : List Pack) players errs,
      ds.list = ds2.list → ds.level = ds2.level → fetchPacks ds = none →
      fetchPacks ds2 = some catalog →
      fetchLeaderboard asciiLower demoScore id ds2 = .ok (some (players, errs)) →
      fetchLeaderboard asciiLower demoScore id ds = .ok (some (players.map clearPacks, errs)))) ∧
    fetchLeaderboardFrom asciiLower demoScore id (some packList) none
      = .ok (some (packPlayers.map clearPacks, [])) ∧
    fetchLeaderboard asciiLower demoScore id recordsSourceNoPacks
      = clearResult (fetchLeaderboard asciiLower demoScore id recordsSource) ∧
    (fetchLeaderboard asciiLower demoScore id recordsSource).toOption.map
        (fun r => r.map (fun x => x.1.map (fun p => p.user)))
      = some (some ["V", "B", "A", "C"]) :=
  ⟨catalog_frame asciiLower demoScore id, by decide, by decide, by decide⟩

end EasyDemonList
